import Mathlib

/-!
Verification of the gophish template / header-profile core.

This file shallowly embeds the two source files of the repository:
`models/template.go` (header-profile registry, boundary generation, header
resolution, template validation) and `models/template_context.go` (phishing
template context construction, template execution, template validation).

Modelling conventions:
* Go `map[string]string` values become association lists `List (String × String)`
  with `lookupHeader` / `setHeader`; iteration order of a Go map is
  irrelevant to every property proved here.
* The process randomness used by `generateBoundary` is made explicit: a
  draw stream `Nat → Fin 62` indexing into the fixed charset, one stream
  per `generateBoundary` call site.
* Go strings are modelled as Lean `String`s; percent-escaping treats each
  `Char` as one byte, which is exact for code points below 256 (Go operates
  on the UTF-8 bytes; theorems that need the byte view carry an explicit
  `byteClean` hypothesis restricting to single-byte code points).
* Fallible external calls (`mail.ParseAddress`, `url.Parse`) are passed to
  the embedded functions as explicit function arguments, so theorems
  quantify over every possible parse behaviour; spec-modelled concrete
  instances (`specParseAddress`, `specParseURL`) are supplied where the
  source fixes the input (the template validator's dummy context).
-/

instance {α : Type} {β : Type} [DecidableEq α] [DecidableEq β] :
    DecidableEq (Except α β) := fun a b =>
  match a, b with
  | .ok x, .ok y =>
      if h : x = y then isTrue (by rw [h])
      else isFalse (by intro hc; cases hc; exact h rfl)
  | .error x, .error y =>
      if h : x = y then isTrue (by rw [h])
      else isFalse (by intro hc; cases hc; exact h rfl)
  | .ok _, .error _ => isFalse (by intro hc; cases hc)
  | .error _, .ok _ => isFalse (by intro hc; cases hc)

/-- Go `error` values produced by this core: the three named template errors
from `template.go` plus external parse failures and `fmt.Errorf`-style
wrapping with a context message. -/
inductive GoErr where
  | errTemplateNameNotSpecified
  | errTemplateMissingParameter
  | errInvalidHeaderProfile
  | parseFailure (msg : String)
  | wrap (ctxMsg : String) (e : GoErr)
deriving DecidableEq

/-- A set of predefined email headers (`HeaderProfile` in `template.go`). -/
structure HeaderProfile where
  Name : String
  Headers : List (String × String)
deriving DecidableEq

/-- The known header profiles (`PredefinedHeaderProfiles` in `template.go`),
as an association list from profile key to profile. -/
def PredefinedHeaderProfiles : List (String × HeaderProfile) :=
  [("default",
     { Name := "Default (Gophish)",
       Headers := [("MIME-Version", "1.0")] }),
   ("apple_mail",
     { Name := "Apple Mail (macOS)",
       Headers := [("MIME-Version", "1.0 (Mac OS X Mail 11.5 (3445.9.1))"),
                   ("X-Mailer", "Apple Mail (2.3445.9.1)")] }),
   ("outlook",
     { Name := "Microsoft Outlook (Desktop)",
       Headers := [("MIME-Version", "1.0"),
                   ("X-Mailer", "Microsoft Outlook 16.0"),
                   ("Content-Language", "en-us"),
                   ("x-ms-has-attach", ""),
                   ("x-ms-tnef-correlator", "")] }),
   ("gmail_web",
     { Name := "Gmail (Web Interface)",
       Headers := [("MIME-Version", "1.0")] }),
   ("yahoo_web",
     { Name := "Yahoo Mail (Web Interface)",
       Headers := [("MIME-Version", "1.0")] })]

/-- Go map lookup `PredefinedHeaderProfiles[profileName]`. -/
def lookupProfile (profileName : String) : Option HeaderProfile :=
  (PredefinedHeaderProfiles.find? (fun p => p.1 == profileName)).map (·.2)

/-- Go map lookup on a header set. -/
def lookupHeader (headers : List (String × String)) (k : String) : Option String :=
  (headers.find? (fun p => p.1 == k)).map (·.2)

/-- Go map assignment `headers[k] = v` on the association-list model. -/
def setHeader : List (String × String) → String → String → List (String × String)
  | [], k, v => [(k, v)]
  | (k', v') :: rest, k, v =>
      if k' = k then (k, v) :: rest else (k', v') :: setHeader rest k v

/-- The fixed charset of `generateBoundary` in `template.go`. -/
def boundaryCharset : String :=
  "abcdefghijklmnopqrstuvwxyzABCDEFGHIJKLMNOPQRSTUVWXYZ0123456789"

/-- `generateBoundary` from `template.go`: 30 characters drawn from
`boundaryCharset` by the seeded random source, here made explicit as the
draw stream `seededRand` (each draw is `Intn 62`, hence `Fin 62`). -/
def generateBoundary (seededRand : Nat → Fin 62) : String :=
  String.mk ((List.range 30).map fun i =>
    boundaryCharset.toList.getD (seededRand i).val 'a')

/-- `GetHeadersForProfile` from `template.go`.  Returns the header map, the
boundary token and the (always-`none`) error.  The two potential
`generateBoundary` calls receive their own draw streams `rand1` and `rand2`
(the second call only happens for the `apple_mail` profile). -/
def GetHeadersForProfile (profileName : String) (rand1 rand2 : Nat → Fin 62) :
    List (String × String) × String × Option GoErr :=
  let found := lookupProfile profileName
  -- Default to "default" profile if not found or empty
  let resolvedName := if found.isNone || profileName == "" then "default" else profileName
  let profile :=
    if found.isNone || profileName == "" then
      (lookupProfile "default").getD { Name := "", Headers := [] }
    else found.getD { Name := "", Headers := [] }
  -- Copy headers to avoid modifying the original map
  let headers := profile.Headers
  -- Generate dynamic boundary for Content-Type
  let boundary := "----=_NextPart_" ++ generateBoundary rand1
  let boundary :=
    if resolvedName == "apple_mail" then "Apple-Mail=_" ++ generateBoundary rand2
    else boundary
  -- Add Content-Type header with dynamic boundary
  let headers :=
    setHeader headers "Content-Type"
      ("multipart/alternative; boundary=\"" ++ boundary ++ "\"")
  (headers, boundary, none)

/-! ## Character-level string helpers (models of Go `strings` operations) -/

/-- Split a character list at every occurrence of `sep`
(model of `strings.Split`).  Always returns a non-empty list of parts. -/
def splitOnChar (sep : Char) : List Char → List (List Char)
  | [] => [[]]
  | c :: rest =>
      match splitOnChar sep rest with
      | [] => [[c]]
      | h :: t => if c = sep then [] :: h :: t else (c :: h) :: t

/-- Cut a character list at the first occurrence of `sep`
(model of `strings.Cut`): before, after, found. -/
def cutChar (sep : Char) : List Char → List Char × List Char × Bool
  | [] => ([], [], false)
  | c :: rest =>
      if c = sep then ([], rest, true)
      else
        let r := cutChar sep rest
        (c :: r.1, r.2.1, r.2.2)

/-! ## Query escaping (model of `url.QueryEscape` / `url.QueryUnescape`) -/

/-- Characters Go leaves unescaped in a query component:
alphanumerics and `-._~`. -/
def unreservedChar (c : Char) : Bool :=
  c.isAlphanum || c = '-' || c = '_' || c = '.' || c = '~'

/-- Upper-case hexadecimal digit for `n < 16`. -/
def hexDigitChar (n : Nat) : Char :=
  "0123456789ABCDEF".toList.getD n '0'

/-- Value of a hexadecimal digit character (`unhex`). -/
def hexVal (c : Char) : Option Nat :=
  if '0' ≤ c ∧ c ≤ '9' then some (c.toNat - 48)
  else if 'A' ≤ c ∧ c ≤ 'F' then some (c.toNat - 55)
  else if 'a' ≤ c ∧ c ≤ 'f' then some (c.toNat - 87)
  else none

/-- Escape one byte as `url.QueryEscape` does: unreserved bytes unchanged,
space becomes `+`, everything else becomes `%XX`.  A `Char` stands for one
byte; code points ≥ 256 are truncated (theorems that depend on escaping
carry a hypothesis excluding them). -/
def escapeChar (c : Char) : List Char :=
  if unreservedChar c then [c]
  else if c = ' ' then ['+']
  else
    let n := c.toNat % 256
    ['%', hexDigitChar (n / 16), hexDigitChar (n % 16)]

/-- `url.QueryEscape` on the character-list view. -/
def escapeList (cs : List Char) : List Char :=
  (cs.map escapeChar).flatten

/-- `url.QueryEscape`. -/
def escapeQuery (s : String) : String :=
  String.mk (escapeList s.toList)

/-- `url.QueryUnescape` (query mode): `%XX` decodes a byte, `+` decodes to
space, a `%` not followed by two hex digits is an error (`none`). -/
def unescapeList : List Char → Option (List Char)
  | [] => some []
  | c :: rest =>
      if c = '%' then
        match rest with
        | a :: b :: rest' =>
            (hexVal a).bind fun x =>
            (hexVal b).bind fun y =>
            (unescapeList rest').map (Char.ofNat (16 * x + y) :: ·)
        | _ => none
      else if c = '+' then (unescapeList rest).map (' ' :: ·)
      else (unescapeList rest).map (c :: ·)

/-! ## `url.Values` (model of Go's `map[string][]string` with the
operations used by the source: `Query`, `Set`, `Encode`) -/

/-- `url.Values`: association list from key to the list of values. -/
abbrev Values := List (String × List String)

/-- `m[k] = append(m[k], v)`: append to an existing binding, else add a new
binding (model of what `ParseQuery` does per parsed pair). -/
def valuesAdd : Values → String → String → Values
  | [], k, v => [(k, [v])]
  | (k', vs) :: rest, k, v =>
      if k' = k then (k', vs ++ [v]) :: rest else (k', vs) :: valuesAdd rest k v

/-- `Values.Set`: replace the binding of `k` by the single value `v`. -/
def valuesSet : Values → String → String → Values
  | [], k, v => [(k, [v])]
  | (k', vs) :: rest, k, v =>
      if k' = k then (k, [v]) :: rest else (k', vs) :: valuesSet rest k v

/-- `Values.Get`-style lookup of all values bound to `k` (missing key =
empty list, matching the Go map's zero value). -/
def valuesGet (m : Values) (k : String) : List String :=
  ((m.find? (fun p => p.1 == k)).map (·.2)).getD []

/-- One `key=value` query segment to a parsed pair, as `ParseQuery` treats
it: segments containing `;` are rejected, empty segments are skipped, the
segment is cut at the first `=`, and both sides are query-unescaped (a
failed unescape drops the pair). -/
def segToPair (seg : List Char) : Option (String × String) :=
  if seg.contains ';' then none
  else if seg = [] then none
  else
    let c := cutChar '=' seg
    match unescapeList c.1, unescapeList c.2.1 with
    | some k, some v => some (String.mk k, String.mk v)
    | _, _ => none

/-- `url.ParseQuery` as used through `URL.Query()` (which discards the
error): split on `&`, keep the pairs that parse, accumulate into `Values`. -/
def parseQueryValues (q : String) : Values :=
  ((splitOnChar '&' q.toList).filterMap segToPair).foldl
    (fun m kv => valuesAdd m kv.1 kv.2) []

/-- Join the encoded `k=v` parts with `&` (the buffer loop of
`Values.Encode`). -/
def joinAmp : List String → String
  | [] => ""
  | [s] => s
  | s :: s' :: rest => s ++ "&" ++ joinAmp (s' :: rest)

/-- `Values.Encode`: keys in sorted order, each value escaped as
`key=value`, joined with `&`. -/
def valuesEncode (m : Values) : String :=
  let sorted := m.insertionSort (fun a b => a.1 ≤ b.1)
  joinAmp (sorted.flatMap fun kv =>
    kv.2.map fun v => escapeQuery kv.1 ++ "=" ++ escapeQuery v)

/-! ## `path.Clean` / `path.Join` -/

/-- Marks a path segment the cleaner passes through unchanged. -/
def goodSeg (seg : List Char) : Prop :=
  seg ≠ [] ∧ seg ≠ ['.'] ∧ seg ≠ ['.', '.'] ∧ ¬ seg.contains '/'

instance (seg : List Char) : Decidable (goodSeg seg) := by
  unfold goodSeg; infer_instance

/-- Segment-stack form of `path.Clean`: drop empty and `.` segments, let
`..` pop a previous segment (or survive at the front of a relative path),
keep everything else.  `stack` holds the output segments in reverse. -/
def cleanSegs (rooted : Bool) : List (List Char) → List (List Char) → List (List Char)
  | stack, [] => stack.reverse
  | stack, seg :: rest =>
      if seg = [] ∨ seg = ['.'] then cleanSegs rooted stack rest
      else if seg = ['.', '.'] then
        match stack with
        | [] =>
            if rooted then cleanSegs rooted [] rest
            else cleanSegs rooted [['.', '.']] rest
        | top :: stack' =>
            if top = ['.', '.'] then cleanSegs rooted (seg :: stack) rest
            else cleanSegs rooted stack' rest
      else cleanSegs rooted (seg :: stack) rest

/-- Join segments with `/`. -/
def joinSlash : List (List Char) → List Char
  | [] => []
  | [s] => s
  | s :: s' :: rest => s ++ '/' :: joinSlash (s' :: rest)

/-- `path.Clean`: lexical simplification of a slash-separated path.  The
segment-stack formulation is extensionally the Go algorithm: it collapses
multiple slashes, eliminates `.` and inner `..` elements, keeps a rooted
path rooted, and returns `"."` for an emptied relative path. -/
def pathClean (p : String) : String :=
  if p = "" then "."
  else
    let rooted := p.toList.head? = some '/'
    let segs := cleanSegs rooted [] (splitOnChar '/' p.toList)
    let out := joinSlash segs
    if rooted then String.mk ('/' :: out)
    else if out = [] then "." else String.mk out

/-- `path.Join` for two elements: empty elements are skipped, the rest are
joined with `/` and the result is cleaned; all-empty input gives `""`. -/
def pathJoin (a b : String) : String :=
  if a = "" ∧ b = "" then ""
  else if a = "" then pathClean b
  else if b = "" then pathClean a
  else pathClean (a ++ "/" ++ b)

/-! ## `url.URL` -/

/-- The components of `net/url.URL` that the source manipulates.  `user`
holds the rendered userinfo (`username[:password]`), `none` when absent. -/
structure URL where
  scheme : String
  user : Option String
  host : String
  path : String
  rawQuery : String
  fragment : String
deriving DecidableEq

/-- `url.URL.String()` restricted to the hierarchical (non-opaque) form:
`scheme:` when a scheme is present, `//user@host` when an authority is
present, a bridging `/` for a rootless path after a host, the RFC 3986
§4.2 `./` guard for a scheme-less rootless path whose first segment has a
colon, then `?query` and `#fragment` when non-empty.  Component escaping
is not re-applied (components are carried verbatim). -/
def URL.toString (u : URL) : String :=
  let start := if u.scheme ≠ "" then u.scheme ++ ":" else ""
  let auth :=
    if u.scheme ≠ "" ∨ u.host ≠ "" ∨ u.user.isSome then
      (if u.host ≠ "" ∨ u.path ≠ "" ∨ u.user.isSome then "//" else "")
        ++ (match u.user with | some ui => ui ++ "@" | none => "")
        ++ u.host
    else ""
  let slash :=
    if u.path ≠ "" ∧ u.path.toList.head? ≠ some '/' ∧ u.host ≠ "" then "/" else ""
  let dotSlash :=
    if start ++ auth ++ slash = "" ∧
        ((cutChar '/' u.path.toList).1.contains ':') then "./"
    else ""
  start ++ auth ++ slash ++ dotSlash ++ u.path
    ++ (if u.rawQuery ≠ "" then "?" ++ u.rawQuery else "")
    ++ (if u.fragment ≠ "" then "#" ++ u.fragment else "")

/-- Find the `://` marker: returns the characters before it and after it. -/
def cutSchemeMarker : List Char → Option (List Char × List Char)
  | [] => none
  | ':' :: '/' :: '/' :: rest => some ([], rest)
  | c :: rest => (cutSchemeMarker (c :: rest).tail).map (fun r => (c :: r.1, r.2))

/-- Modelled from the spec: `url.Parse` (the `net/url` parser is not part of
this repository).  Only the absolute hierarchical URLs the spec talks about
are supported — `scheme://[user@]host[/path][?query][#fragment]`; anything
without a `://` marker is rejected.  The userinfo split takes the first
`@` of the authority. -/
def specParseURL (s : String) : Except GoErr URL :=
  match cutSchemeMarker s.toList with
  | none => .error (.parseFailure ("invalid URL: " ++ s))
  | some (schemeCs, rest) =>
      if schemeCs = [] then .error (.parseFailure ("missing scheme: " ++ s))
      else
        let beforeFrag := (cutChar '#' rest).1
        let frag := (cutChar '#' rest).2.1
        let beforeQuery := (cutChar '?' beforeFrag).1
        let query := (cutChar '?' beforeFrag).2.1
        let auth := beforeQuery.takeWhile (· ≠ '/')
        let path := beforeQuery.drop auth.length
        let userHost := cutChar '@' auth
        let user := if userHost.2.2 then some (String.mk userHost.1) else none
        let host := if userHost.2.2 then String.mk userHost.2.1 else String.mk auth
        .ok { scheme := String.mk schemeCs, user := user, host := host,
              path := String.mk path, rawQuery := String.mk query,
              fragment := String.mk frag }

/-! ## `mail.Address` -/

/-- `net/mail.Address`: display name and address. -/
structure MailAddress where
  Name : String
  Address : String
deriving DecidableEq

/-- Modelled from the spec: `mail.ParseAddress` (the `net/mail` parser is
not part of this repository).  The spec only relies on it accepting a plain
`local@domain` address, yielding an empty display name and the bare
address; everything else is rejected. -/
def specParseAddress (s : String) : Except GoErr MailAddress :=
  if s.toList.contains '@' ∧ s ≠ "" ∧ ¬ s.toList.contains ' '
      ∧ ¬ s.toList.contains '<' then
    .ok { Name := "", Address := s }
  else .error (.parseFailure ("mail: misformatted address " ++ s))

/-! ## The template execution engine -/

/-- Modelled from the spec: the parsed form of a Go `text/template` body as
§4.2 describes it — literal text, top-level field references `.Name`, and
the one registered zero-argument function `hora`. -/
inductive TplNode where
  | lit (s : String)
  | field (name : String)
  | hora
deriving DecidableEq

/-- Scan to the closing `\x7d\x7d` delimiter: action characters and the
remainder, `none` when the delimiter never closes. -/
def splitClose : List Char → Option (List Char × List Char)
  | [] => none
  | '}' :: '}' :: rest => some ([], rest)
  | c :: rest => (splitClose (c :: rest).tail).map (fun r => (c :: r.1, r.2))

/-- Parse the trimmed content of one action: `hora`, or `.Name` with a
non-empty alphanumeric name; anything else is a parse error. -/
def parseAction (act : List Char) : Except GoErr TplNode :=
  let t := (act.dropWhile (· = ' ')).reverse.dropWhile (· = ' ') |>.reverse
  if t = ['h', 'o', 'r', 'a'] then .ok .hora
  else
    match t with
    | '.' :: name =>
        if name ≠ [] ∧ name.all (fun c => c.isAlphanum) then
          .ok (.field (String.mk name))
        else .error (.parseFailure "template: bad action")
    | _ => .error (.parseFailure "template: bad action")

/-- Modelled from the spec: parsing a template body (fuel-indexed scan; the
fuel `cs.length + 1` always suffices).  Literal text up to `\x7b\x7b`, then
one action up to `\x7d\x7d`, then the rest; an unclosed action is a parse
error. -/
def parseTplFuel : Nat → List Char → Except GoErr (List TplNode)
  | 0, _ => .error (.parseFailure "template: out of fuel")
  | fuel + 1, cs =>
      match cutChar '{' cs with
      | (pre, rest, found) =>
          if found then
            match rest with
            | '{' :: rest' =>
                match splitClose rest' with
                | none => .error (.parseFailure "template: unclosed action")
                | some (act, rest'') =>
                    match parseAction act with
                    | .error e => .error e
                    | .ok node =>
                        match parseTplFuel fuel rest'' with
                        | .error e => .error e
                        | .ok nodes => .ok (.lit (String.mk pre) :: node :: nodes)
            | _ =>
                match parseTplFuel fuel rest with
                | .error e => .error e
                | .ok nodes => .ok (.lit (String.mk (pre ++ ['{'])) :: nodes)
          else .ok [.lit (String.mk pre)]

/-- Parse a template body. -/
def parseTpl (s : String) : Except GoErr (List TplNode) :=
  parseTplFuel (s.toList.length + 1) s.toList

/-- Modelled from the spec: executing a parsed template against a data
context, given as a field-lookup function.  A reference to a field the
data does not define is an execution error; `hora` renders the current
wall-clock time `now`. -/
def execTpl (now : String) (data : String → Option String) :
    List TplNode → Except GoErr String
  | [] => .ok ""
  | .lit s :: rest => (execTpl now data rest).map (s ++ ·)
  | .hora :: rest => (execTpl now data rest).map (now ++ ·)
  | .field n :: rest =>
      match data n with
      | none => .error (.parseFailure ("can\x27t evaluate field " ++ n))
      | some v => (execTpl now data rest).map (v ++ ·)

/-- `ExecuteTemplate` from `template_context.go`: parse the body with the
`hora` function registered, then execute it against `data`; parse and
execution failures are wrapped with their stage. -/
def ExecuteTemplate (now : String) (text : String)
    (data : String → Option String) : Except GoErr String :=
  match parseTpl text with
  | .error e => .error (.wrap "error parsing template" e)
  | .ok nodes =>
      match execTpl now data nodes with
      | .error e => .error (.wrap "error executing template" e)
      | .ok out => .ok out

/-! ## Recipients and the phishing template context -/

/-- `BaseRecipient`: the recipient identity fields the templates consume. -/
structure BaseRecipient where
  Email : String
  FirstName : String
  LastName : String
  Position : String
deriving DecidableEq

/-- Field lookup on a recipient, as `text/template` resolves `.Name`
references against a `BaseRecipient` value. -/
def BaseRecipient.lookup (r : BaseRecipient) : String → Option String
  | "Email" => some r.Email
  | "FirstName" => some r.FirstName
  | "LastName" => some r.LastName
  | "Position" => some r.Position
  | _ => none

/-- `Result` (the part used by the validator): a recipient plus its
recipient id. -/
structure Result where
  baseRecipient : BaseRecipient
  RId : String
deriving DecidableEq

/-- The `TemplateContext` interface: a from-address and a base-URL template
body. -/
structure TemplateContextI where
  getFromAddress : String
  getBaseURL : String
deriving DecidableEq

/-- Modelled from the spec: `RecipientParameter`, the fixed query-parameter
key (`rid`) carrying the recipient id; its definition lives outside the
two source files. -/
def RecipientParameter : String := "rid"

/-- `PhishingTemplateContext` from `template_context.go`. -/
structure PhishingTemplateContext where
  From : String
  URL : String
  Tracker : String
  TrackingURL : String
  RId : String
  BaseURL : String
  baseRecipient : BaseRecipient
deriving DecidableEq

/-- The Go zero value `PhishingTemplateContext\x7b\x7d`. -/
def PhishingTemplateContext.empty : PhishingTemplateContext :=
  { From := "", URL := "", Tracker := "", TrackingURL := "", RId := "",
    BaseURL := "",
    baseRecipient :=
      { Email := "", FirstName := "", LastName := "", Position := "" } }

/-- Field lookup on a built context, as `text/template` resolves `.Name`
references against a `PhishingTemplateContext` value (the embedded
`BaseRecipient` fields are promoted). -/
def PhishingTemplateContext.lookup (p : PhishingTemplateContext) :
    String → Option String
  | "From" => some p.From
  | "URL" => some p.URL
  | "Tracker" => some p.Tracker
  | "TrackingURL" => some p.TrackingURL
  | "RId" => some p.RId
  | "BaseURL" => some p.BaseURL
  | n => p.baseRecipient.lookup n

/-- `NewPhishingTemplateContext` from `template_context.go`.  `now` is the
wall-clock reading `hora` renders; `parseAddress` and `parseURL` stand for
`mail.ParseAddress` and `url.Parse`.  The source parses `templateURL`
three times with the same deterministic parser, so the single parse result
is reused for the base, phishing and tracking URLs.  Returns the context
and the error, exactly one of which is meaningful — every error branch
returns the zero context. -/
def NewPhishingTemplateContext (now : String)
    (parseAddress : String → Except GoErr MailAddress)
    (parseURL : String → Except GoErr URL)
    (ctx : TemplateContextI) (r : BaseRecipient) (rid : String) :
    PhishingTemplateContext × Option GoErr :=
  let fromAddr := ctx.getFromAddress
  match parseAddress fromAddr with
  | .error e =>
      (PhishingTemplateContext.empty,
       some (.wrap ("failed to parse from address \x27" ++ fromAddr ++ "\x27") e))
  | .ok f =>
      -- Use address part if name is empty
      let fn := if f.Name = "" then f.Address else f.Name
      match ExecuteTemplate now ctx.getBaseURL r.lookup with
      | .error e =>
          (PhishingTemplateContext.empty,
           some (.wrap "failed to execute base URL template" e))
      | .ok templateURL =>
          match parseURL templateURL with
          | .error e =>
              (PhishingTemplateContext.empty,
               some (.wrap ("failed to parse templated base URL \x27"
                 ++ templateURL ++ "\x27") e))
          | .ok u =>
              -- For the base URL, we reset the path and the query
              let baseURL := { u with path := "", rawQuery := "" }
              -- Create the final phishing URL with the recipient ID
              let q := valuesSet (parseQueryValues u.rawQuery) RecipientParameter rid
              let phishURL := { u with rawQuery := valuesEncode q }
              -- Create the tracking URL
              let trackingURL :=
                { u with path := pathJoin u.path "/track",
                         rawQuery := valuesEncode q }
              ({ baseRecipient := r,
                 BaseURL := baseURL.toString,
                 URL := phishURL.toString,
                 TrackingURL := trackingURL.toString,
                 Tracker := "<img alt=\x27\x27 style=\x27display: none\x27 src=\x27"
                   ++ trackingURL.toString ++ "\x27/>",
                 From := fn,
                 RId := rid }, none)

/-- `ValidationContext` from `template_context.go`. -/
structure ValidationContext where
  FromAddress : String
  BaseURL : String
deriving DecidableEq

/-- `ValidateTemplate` from `template_context.go`: build the dummy
validation context and recipient, create the phishing template context
(with the spec-modelled address/URL parsers standing in for the stdlib
ones), then execute the candidate body against it. -/
def ValidateTemplate (now : String) (text : String) : Option GoErr :=
  let vc : ValidationContext :=
    { FromAddress := "foo@bar.com", BaseURL := "http://example.com" }
  let td : Result :=
    { baseRecipient := { Email := "foo@bar.com", FirstName := "Foo",
                         LastName := "Bar", Position := "Test" },
      RId := "validate123" }
  match NewPhishingTemplateContext now specParseAddress specParseURL
      { getFromAddress := vc.FromAddress, getBaseURL := vc.BaseURL }
      td.baseRecipient td.RId with
  | (_, some e) => some (.wrap "error creating validation context" e)
  | (ptx, none) =>
      match ExecuteTemplate now text ptx.lookup with
      | .error e => some (.wrap "template validation failed" e)
      | .ok _ => none

/-! ## `Template` and its validation -/

/-- Modelled from the spec: an attachment, reduced to the outcome of its
(out-of-scope) `Attachment.Validate` call. -/
structure Attachment where
  validateResult : Option GoErr
deriving DecidableEq

/-- `Attachment.Validate` (modelled from the spec: attachment validation is
owned by an external collaborator). -/
def Attachment.Validate (a : Attachment) : Option GoErr :=
  a.validateResult

/-- `Template` from `template.go` (the persistence-only fields `Id`,
`UserId`, `ModifiedDate` carry no validation behaviour and are dropped). -/
structure Template where
  Name : String
  EnvelopeSender : String
  Subject : String
  Text : String
  HTML : String
  Attachments : List Attachment
  HeaderProfile : String
deriving DecidableEq

/-- First failing validation among the attachments. -/
def firstAttachmentErr : List Attachment → Option GoErr
  | [] => none
  | a :: rest =>
      match a.Validate with
      | some e => some e
      | none => firstAttachmentErr rest

/-- `Template.Validate` from `template.go`: reject a non-empty unknown
header profile, then the name/content switch, then the envelope sender
(parsed with the spec-modelled address parser), then both template bodies,
then the attachments. -/
def Template.Validate (now : String) (t : Template) : Option GoErr :=
  if t.HeaderProfile ≠ "" ∧ (lookupProfile t.HeaderProfile).isNone then
    some .errInvalidHeaderProfile
  else if t.Name = "" then some .errTemplateNameNotSpecified
  else if t.Text = "" ∧ t.HTML = "" then some .errTemplateMissingParameter
  else
    match
      (if t.EnvelopeSender ≠ "" then
        match specParseAddress t.EnvelopeSender with
        | .error e => some e
        | .ok _ => none
      else none) with
    | some e => some e
    | none =>
        match ValidateTemplate now t.HTML with
        | some e => some e
        | none =>
            match ValidateTemplate now t.Text with
            | some e => some e
            | none => firstAttachmentErr t.Attachments

/-! ## Predicates used by the theorem statements -/

/-- A string whose characters are single bytes (code points below 256):
on these the `Char`-level escaping model agrees exactly with Go's
byte-level escaping. -/
def byteClean (s : String) : Prop := ∀ c ∈ s.toList, c.toNat < 256

instance (s : String) : Decidable (byteClean s) := by
  unfold byteClean; infer_instance

/-- Association lists with pairwise-distinct keys: the images of Go maps. -/
def keysNodup (m : Values) : Prop := (m.map Prod.fst).Nodup

/-- Every key and value in the `Values` is a byte string. -/
def valuesByteClean (m : Values) : Prop :=
  ∀ kv ∈ m, byteClean kv.1 ∧ ∀ v ∈ kv.2, byteClean v

/-- A URL path that is already in `path.Clean` normal form and absolute:
empty, or `/`-rooted with non-empty ordinary segments (no `.`/`..`, no
empty segment, no trailing slash). -/
def cleanAbsPath (p : String) : Prop :=
  p.toList = [] ∨
  ∃ segs : List (List Char), segs ≠ [] ∧ (∀ s ∈ segs, goodSeg s) ∧
    p.toList = '/' :: joinSlash segs

/-! # Theorems -/

/-! ## Header map lemmas -/

theorem lookupHeader_setHeader_self (hs : List (String × String)) (k v : String) :
    lookupHeader (setHeader hs k v) k = some v := by
  induction hs with
  | nil => simp [setHeader, lookupHeader]
  | cons p rest ih =>
      by_cases h : p.1 = k
      · simp [setHeader, h, lookupHeader]
      · simpa [setHeader, h, lookupHeader] using ih

theorem lookupHeader_setHeader_ne (hs : List (String × String)) (k v k' : String)
    (h : k' ≠ k) : lookupHeader (setHeader hs k v) k' = lookupHeader hs k' := by
  induction hs with
  | nil => simp [setHeader, lookupHeader, h, Ne.symm h]
  | cons p rest ih =>
      by_cases hp : p.1 = k
      · simp [setHeader, hp, lookupHeader, h, Ne.symm h]
      · by_cases hp' : p.1 = k'
        · simp [setHeader, hp, lookupHeader, hp', h]
        · simpa [setHeader, hp, lookupHeader, hp'] using ih

theorem getHeaders_fallback (n : String) (h : lookupProfile n = none)
    (rand1 rand2 : Nat → Fin 62) :
    GetHeadersForProfile n rand1 rand2 = GetHeadersForProfile "default" rand1 rand2 := by
  simp only [GetHeadersForProfile, h]
  rfl

theorem getHeaders_no_error (n : String) (rand1 rand2 : Nat → Fin 62) :
    (GetHeadersForProfile n rand1 rand2).2.2 = none := rfl

/-- C1: for every profile name not present in the header-profile registry
(including the empty string), `GetHeadersForProfile` resolves exactly as
`"default"` does — identical header map and boundary under the same random
draws, and identical header map except `Content-Type` under different
draws — and `GetHeadersForProfile` never returns a non-nil error for any
profile name. -/
theorem getHeadersForProfile_unknown_fallback (profileName : String)
    (h : lookupProfile profileName = none) :
    (∀ rand1 rand2, GetHeadersForProfile profileName rand1 rand2 =
        GetHeadersForProfile "default" rand1 rand2) ∧
    (∀ name rand1 rand2, (GetHeadersForProfile name rand1 rand2).2.2 = none) ∧
    (∀ rand1 rand2 rand1' rand2' k, k ≠ "Content-Type" →
        lookupHeader (GetHeadersForProfile profileName rand1 rand2).1 k =
        lookupHeader (GetHeadersForProfile "default" rand1' rand2').1 k) := by
  refine ⟨fun rand1 rand2 => getHeaders_fallback profileName h rand1 rand2,
    fun _ _ _ => rfl, fun rand1 rand2 rand1' rand2' k hk => ?_⟩
  rw [getHeaders_fallback profileName h rand1 rand2]
  show lookupHeader (setHeader _ "Content-Type" _) k =
    lookupHeader (setHeader _ "Content-Type" _) k
  rw [lookupHeader_setHeader_ne _ _ _ _ hk, lookupHeader_setHeader_ne _ _ _ _ hk]

theorem getHeadersForProfile_unknown_fallback_witness :
    lookupProfile "bogus_profile" = none ∧
    GetHeadersForProfile "bogus_profile" (fun _ => 0) (fun _ => 0) =
      GetHeadersForProfile "default" (fun _ => 0) (fun _ => 0) :=
  ⟨by decide,
   (getHeadersForProfile_unknown_fallback "bogus_profile" (by decide)).1
     (fun _ => 0) (fun _ => 0)⟩

/-! ## Boundary generation lemmas -/

theorem generateBoundary_length (r : Nat → Fin 62) :
    (generateBoundary r).length = 30 := by
  show ((List.range 30).map _).length = 30
  simp

theorem generateBoundary_chars (r : Nat → Fin 62) :
    ∀ c ∈ (generateBoundary r).toList, c ∈ boundaryCharset.toList := by
  intro c hc
  obtain ⟨i, _, rfl⟩ : ∃ i ∈ List.range 30,
      boundaryCharset.toList.getD (r i).val 'a' = c := by
    simpa [generateBoundary] using hc
  rcases hg : boundaryCharset.toList.get? (r i).val with _ | d
  · show (boundaryCharset.toList.get? (r i).val).getD 'a' ∈ _
    rw [hg]; decide
  · show (boundaryCharset.toList.get? (r i).val).getD 'a' ∈ _
    rw [hg]; exact List.get?_mem hg

/-- C3: every `GetHeadersForProfile` result carries a `Content-Type` header
of exactly `multipart/alternative; boundary="<token>"` where `<token>` is
the returned boundary, and the boundary is the profile-dependent constant
tag (`Apple-Mail=_` for the `apple_mail` profile, `----=_NextPart_`
otherwise) followed by exactly 30 characters from the fixed alphanumeric
charset. -/
theorem getHeadersForProfile_content_type_boundary (profileName : String)
    (rand1 rand2 : Nat → Fin 62) :
    lookupHeader (GetHeadersForProfile profileName rand1 rand2).1 "Content-Type" =
      some ("multipart/alternative; boundary=\""
        ++ (GetHeadersForProfile profileName rand1 rand2).2.1 ++ "\"") ∧
    ∃ suffix : String,
      (GetHeadersForProfile profileName rand1 rand2).2.1 =
        (if profileName = "apple_mail" then "Apple-Mail=_" else "----=_NextPart_")
          ++ suffix ∧
      suffix.length = 30 ∧ ∀ c ∈ suffix.toList, c ∈ boundaryCharset.toList := by
  constructor
  · exact lookupHeader_setHeader_self _ _ _
  · by_cases hp : profileName = "apple_mail"
    · subst hp
      exact ⟨generateBoundary rand2, rfl, generateBoundary_length rand2,
        generateBoundary_chars rand2⟩
    · refine ⟨generateBoundary rand1, ?_, generateBoundary_length rand1,
        generateBoundary_chars rand1⟩
      rw [if_neg hp]
      rcases hf : lookupProfile profileName with _ | p
      · simp only [GetHeadersForProfile, hf]
        rfl
      · have hne : (profileName == "") = false := by
          rw [beq_eq_false_iff_ne]
          intro hc
          subst hc
          rw [show lookupProfile "" = none from by decide] at hf
          simp at hf
        have hne2 : (profileName == "apple_mail") = false := by
          rw [beq_eq_false_iff_ne]; exact hp
        simp [GetHeadersForProfile, hf, hne, hne2]

/-- C7: a `Template` whose `HeaderProfile` is non-empty and unknown to the
registry is rejected by `Template.Validate` with the invalid-header-profile
error, even though `GetHeadersForProfile` on the same name succeeds (no
error) by falling back to the default profile. -/
theorem templateValidate_rejects_unknown_profile (now : String) (t : Template)
    (h1 : t.HeaderProfile ≠ "") (h2 : lookupProfile t.HeaderProfile = none) :
    Template.Validate now t = some .errInvalidHeaderProfile ∧
    ∀ rand1 rand2,
      (GetHeadersForProfile t.HeaderProfile rand1 rand2).2.2 = none ∧
      GetHeadersForProfile t.HeaderProfile rand1 rand2 =
        GetHeadersForProfile "default" rand1 rand2 := by
  refine ⟨?_, fun rand1 rand2 =>
    ⟨rfl, getHeaders_fallback t.HeaderProfile h2 rand1 rand2⟩⟩
  simp [Template.Validate, h1, h2]

theorem templateValidate_rejects_unknown_profile_witness :
    ("ghost" : String) ≠ "" ∧ lookupProfile "ghost" = none ∧
    Template.Validate "00:00"
      { Name := "t", EnvelopeSender := "", Subject := "", Text := "hi",
        HTML := "", Attachments := [], HeaderProfile := "ghost" } =
      some .errInvalidHeaderProfile :=
  ⟨by decide, by decide,
   (templateValidate_rejects_unknown_profile "00:00"
     { Name := "t", EnvelopeSender := "", Subject := "", Text := "hi",
       HTML := "", Attachments := [], HeaderProfile := "ghost" }
     (by decide) (by decide)).1⟩

/-! ## Context builder lemmas -/

theorem newContext_success (now : String)
    (parseAddress : String → Except GoErr MailAddress)
    (parseURL : String → Except GoErr URL)
    (ctx : TemplateContextI) (r : BaseRecipient) (rid : String)
    (a : MailAddress) (s : String) (u : URL)
    (ha : parseAddress ctx.getFromAddress = .ok a)
    (hr : ExecuteTemplate now ctx.getBaseURL r.lookup = .ok s)
    (hu : parseURL s = .ok u) :
    (NewPhishingTemplateContext now parseAddress parseURL ctx r rid).2 = none ∧
    (NewPhishingTemplateContext now parseAddress parseURL ctx r rid).1.From = (if a.Name = "" then a.Address else a.Name) ∧
    (NewPhishingTemplateContext now parseAddress parseURL ctx r rid).1.RId = rid ∧
    (NewPhishingTemplateContext now parseAddress parseURL ctx r rid).1.baseRecipient = r ∧
    (NewPhishingTemplateContext now parseAddress parseURL ctx r rid).1.BaseURL = URL.toString { u with path := "", rawQuery := "" } ∧
    (NewPhishingTemplateContext now parseAddress parseURL ctx r rid).1.URL = URL.toString { u with rawQuery := valuesEncode (valuesSet (parseQueryValues u.rawQuery) RecipientParameter rid) } ∧
    (NewPhishingTemplateContext now parseAddress parseURL ctx r rid).1.TrackingURL = URL.toString { u with path := pathJoin u.path "/track", rawQuery := valuesEncode (valuesSet (parseQueryValues u.rawQuery) RecipientParameter rid) } ∧
    (NewPhishingTemplateContext now parseAddress parseURL ctx r rid).1.Tracker = "<img alt=\x27\x27 style=\x27display: none\x27 src=\x27" ++ (NewPhishingTemplateContext now parseAddress parseURL ctx r rid).1.TrackingURL ++ "\x27/>" := by
  unfold NewPhishingTemplateContext
  simp only [ha, hr, hu]
  refine ⟨?_, ?_, ?_, ?_, ?_, ?_, ?_, ?_⟩ <;> trivial

/-- C8: whenever `NewPhishingTemplateContext` returns a non-nil error (from
address parse failure, base-URL template render failure, or rendered-URL
parse failure), the context it returns is the zero
`PhishingTemplateContext` — never a partially populated one. -/
theorem newContext_error_returns_zero (now : String)
    (parseAddress : String → Except GoErr MailAddress)
    (parseURL : String → Except GoErr URL)
    (ctx : TemplateContextI) (r : BaseRecipient) (rid : String) (e : GoErr)
    (h : (NewPhishingTemplateContext now parseAddress parseURL ctx r rid).2 =
      some e) :
    (NewPhishingTemplateContext now parseAddress parseURL ctx r rid).1 =
      PhishingTemplateContext.empty := by
  unfold NewPhishingTemplateContext at h ⊢
  rcases ha : parseAddress ctx.getFromAddress with e1 | a
  · simp [ha]
  · rcases hr : ExecuteTemplate now ctx.getBaseURL r.lookup with e2 | s
    · simp [ha, hr]
    · rcases hu : parseURL s with e3 | u
      · simp [ha, hr, hu]
      · simp [ha, hr, hu] at h

theorem newContext_error_returns_zero_witness :
    (NewPhishingTemplateContext "00:00"
        (fun _ => .error (.parseFailure "bad")) specParseURL
        { getFromAddress := "nope", getBaseURL := "http://example.com" }
        { Email := "e", FirstName := "f", LastName := "l", Position := "p" }
        "r1").2 =
      some (.wrap "failed to parse from address \x27nope\x27"
        (.parseFailure "bad")) ∧
    (NewPhishingTemplateContext "00:00"
        (fun _ => .error (.parseFailure "bad")) specParseURL
        { getFromAddress := "nope", getBaseURL := "http://example.com" }
        { Email := "e", FirstName := "f", LastName := "l", Position := "p" }
        "r1").1 = PhishingTemplateContext.empty :=
  ⟨rfl,
   newContext_error_returns_zero "00:00" (fun _ => .error (.parseFailure "bad"))
     specParseURL
     { getFromAddress := "nope", getBaseURL := "http://example.com" }
     { Email := "e", FirstName := "f", LastName := "l", Position := "p" }
     "r1" (.wrap "failed to parse from address \x27nope\x27" (.parseFailure "bad"))
     rfl⟩

/-- C4: on every successful build, the `From` field is the parsed address's
display name when that is non-empty, and the bare address otherwise; in
particular `From` can only be empty if the parsed address has both an empty
display name and an empty address (which a valid RFC address never has). -/
theorem newContext_from_display_name (now : String)
    (parseAddress : String → Except GoErr MailAddress)
    (parseURL : String → Except GoErr URL)
    (ctx : TemplateContextI) (r : BaseRecipient) (rid : String) (a : MailAddress)
    (ha : parseAddress ctx.getFromAddress = .ok a)
    (hs : (NewPhishingTemplateContext now parseAddress parseURL ctx r rid).2 =
      none) :
    (NewPhishingTemplateContext now parseAddress parseURL ctx r rid).1.From =
      (if a.Name = "" then a.Address else a.Name) ∧
    ((NewPhishingTemplateContext now parseAddress parseURL ctx r rid).1.From = ""
      → a.Name = "" ∧ a.Address = "") := by
  rcases hr : ExecuteTemplate now ctx.getBaseURL r.lookup with e2 | s
  · exfalso
    unfold NewPhishingTemplateContext at hs
    simp [ha, hr] at hs
  · rcases hu : parseURL s with e3 | u
    · exfalso
      unfold NewPhishingTemplateContext at hs
      simp [ha, hr, hu] at hs
    · have hF :=
        (newContext_success now parseAddress parseURL ctx r rid a s u ha hr hu).2.1
      refine ⟨hF, fun hFrom => ?_⟩
      rw [hF] at hFrom
      by_cases hn : a.Name = ""
      · rw [if_pos hn] at hFrom
        exact ⟨hn, hFrom⟩
      · rw [if_neg hn] at hFrom
        exact absurd hFrom hn

theorem newContext_from_display_name_witness :
    specParseAddress "foo@bar.com" = .ok { Name := "", Address := "foo@bar.com" } ∧
    (NewPhishingTemplateContext "00:00" specParseAddress specParseURL
        { getFromAddress := "foo@bar.com", getBaseURL := "http://example.com" }
        { Email := "e", FirstName := "f", LastName := "l", Position := "p" }
        "r1").2 = none ∧
    (NewPhishingTemplateContext "00:00" specParseAddress specParseURL
        { getFromAddress := "foo@bar.com", getBaseURL := "http://example.com" }
        { Email := "e", FirstName := "f", LastName := "l", Position := "p" }
        "r1").1.From = "foo@bar.com" := by
  refine ⟨rfl, rfl, ?_⟩
  have h := (newContext_from_display_name "00:00" specParseAddress specParseURL
    { getFromAddress := "foo@bar.com", getBaseURL := "http://example.com" }
    { Email := "e", FirstName := "f", LastName := "l", Position := "p" }
    "r1" { Name := "", Address := "foo@bar.com" } rfl rfl).1
  simpa using h

/-! ## Base URL claims -/

theorem urlToString_scheme_host (sc h : String) (hsc : sc ≠ "") (hh : h ≠ "") :
    URL.toString { scheme := sc, user := none, host := h, path := "", rawQuery := "", fragment := "" } = sc ++ "://" ++ h := by
  simp only [URL.toString, ne_eq, hsc, not_false_iff, if_true, hh, Option.isSome_none,
    or_true, true_or, if_false, String.append_empty, cutChar, not_true, false_and,
    and_false, List.contains_nil, Bool.false_eq_true]
  rw [String.append_assoc sc ":" ("//" ++ h), ← String.append_assoc ":" "//" h,
    ← String.append_assoc sc (":" ++ "//") h]
  rfl

/-- C5 counterexample: for the rendered base URL
`http://example.com/p?a=1#frag` the built `BaseURL` is
`http://example.com#frag` — the path and query are stripped but the
fragment survives, so the field is not scheme and host only. -/
theorem newContext_baseURL_keeps_fragment :
    (NewPhishingTemplateContext "00:00" specParseAddress specParseURL { getFromAddress := "a@b.c", getBaseURL := "http://example.com/p?a=1#frag" } { Email := "e", FirstName := "f", LastName := "l", Position := "p" } "r1").1.BaseURL = "http://example.com#frag" ∧
    (NewPhishingTemplateContext "00:00" specParseAddress specParseURL { getFromAddress := "a@b.c", getBaseURL := "http://example.com/p?a=1#frag" } { Email := "e", FirstName := "f", LastName := "l", Position := "p" } "r1").1.BaseURL ≠ "http://example.com" := by
  constructor
  · rfl
  · intro h
    rw [show (NewPhishingTemplateContext "00:00" specParseAddress specParseURL { getFromAddress := "a@b.c", getBaseURL := "http://example.com/p?a=1#frag" } { Email := "e", FirstName := "f", LastName := "l", Position := "p" } "r1").1.BaseURL = "http://example.com#frag" from rfl] at h
    exact absurd h (by decide)

/-- C5 (amended): on every successful build, `BaseURL` is the rendered URL
with its path and query stripped (scheme, userinfo, host and fragment kept);
when the rendered URL has no fragment and no userinfo, it is exactly
`scheme://host`. -/
theorem newContext_baseURL_strips_path_query (now : String)
    (parseAddress : String → Except GoErr MailAddress)
    (parseURL : String → Except GoErr URL)
    (ctx : TemplateContextI) (r : BaseRecipient) (rid : String)
    (a : MailAddress) (s : String) (u : URL)
    (ha : parseAddress ctx.getFromAddress = .ok a)
    (hr : ExecuteTemplate now ctx.getBaseURL r.lookup = .ok s)
    (hu : parseURL s = .ok u) :
    (NewPhishingTemplateContext now parseAddress parseURL ctx r rid).1.BaseURL =
      URL.toString { u with path := "", rawQuery := "" } ∧
    (u.fragment = "" → u.user = none → u.scheme ≠ "" → u.host ≠ "" →
      (NewPhishingTemplateContext now parseAddress parseURL ctx r rid).1.BaseURL =
        u.scheme ++ "://" ++ u.host) := by
  have hB :=
    (newContext_success now parseAddress parseURL ctx r rid a s u ha hr hu).2.2.2.2.1
  refine ⟨hB, fun hf hus hsc hh => ?_⟩
  rw [hB]
  have : ({ u with path := "", rawQuery := "" } : URL) =
      { scheme := u.scheme, user := none, host := u.host, path := "",
        rawQuery := "", fragment := "" } := by
    cases u
    simp_all
  rw [this, urlToString_scheme_host u.scheme u.host hsc hh]

theorem newContext_baseURL_strips_path_query_witness :
    specParseAddress "a@b.c" = .ok { Name := "", Address := "a@b.c" } ∧
    (NewPhishingTemplateContext "00:00" specParseAddress specParseURL { getFromAddress := "a@b.c", getBaseURL := "http://example.com/p?a=1" } { Email := "e", FirstName := "f", LastName := "l", Position := "p" } "r1").1.BaseURL = "http" ++ "://" ++ "example.com" := by
  refine ⟨rfl, ?_⟩
  exact (newContext_baseURL_strips_path_query "00:00" specParseAddress
    specParseURL
    { getFromAddress := "a@b.c", getBaseURL := "http://example.com/p?a=1" }
    { Email := "e", FirstName := "f", LastName := "l", Position := "p" }
    "r1" { Name := "", Address := "a@b.c" } "http://example.com/p?a=1"
    { scheme := "http", user := none, host := "example.com", path := "/p", rawQuery := "a=1", fragment := "" }
    rfl rfl rfl).2 rfl rfl (by decide) (by decide)

/-! ## Tracking URL claims -/

/-- C2 counterexample: for the rendered base URL `http://example.com/foo`
the tracking URL's path is `/foo/track` while the `BaseURL` field's path is
empty, so the tracking path is not the `BaseURL` path with `/track`
appended. -/
theorem trackingURL_path_not_from_baseURL :
    specParseURL ((NewPhishingTemplateContext "00:00" specParseAddress specParseURL { getFromAddress := "a@b.c", getBaseURL := "http://example.com/foo" } { Email := "e", FirstName := "f", LastName := "l", Position := "p" } "r1").1.TrackingURL) = .ok { scheme := "http", user := none, host := "example.com", path := "/foo/track", rawQuery := "rid=r1", fragment := "" } ∧
    specParseURL ((NewPhishingTemplateContext "00:00" specParseAddress specParseURL { getFromAddress := "a@b.c", getBaseURL := "http://example.com/foo" } { Email := "e", FirstName := "f", LastName := "l", Position := "p" } "r1").1.BaseURL) = .ok { scheme := "http", user := none, host := "example.com", path := "", rawQuery := "", fragment := "" } ∧
    ("/foo/track" : String) ≠ "" ++ "/track" := by
  refine ⟨by decide, by decide, by decide⟩

/-! ## Path cleaning lemmas -/

theorem splitOnChar_cons (sep c : Char) (rest : List Char) :
    splitOnChar sep (c :: rest) =
      match splitOnChar sep rest with
      | [] => [[c]]
      | h :: t => if c = sep then [] :: h :: t else (c :: h) :: t := rfl

theorem splitOnChar_ne_nil (sep : Char) (cs : List Char) :
    splitOnChar sep cs ≠ [] := by
  induction cs with
  | nil => simp [splitOnChar]
  | cons c rest ih =>
      rw [splitOnChar_cons]
      rcases h : splitOnChar sep rest with _ | ⟨hd, tl⟩
      · simp
      · dsimp only
        split <;> simp

theorem splitOnChar_sep_head (sep : Char) (cs : List Char) :
    splitOnChar sep (sep :: cs) = [] :: splitOnChar sep cs := by
  rw [splitOnChar_cons]
  rcases h : splitOnChar sep cs with _ | ⟨hd, tl⟩
  · exact absurd h (splitOnChar_ne_nil sep cs)
  · simp

theorem splitOnChar_no_sep (sep : Char) (a : List Char) (h : ¬ a.contains sep) :
    splitOnChar sep a = [a] := by
  induction a with
  | nil => rfl
  | cons c rest ih =>
      simp only [List.contains_cons, Bool.or_eq_true, beq_iff_eq, not_or] at h
      rw [splitOnChar_cons, ih (by simpa using h.2)]
      simp only []
      rw [if_neg (by intro hc; exact h.1 hc.symm)]

theorem splitOnChar_append_sep (sep : Char) (a r : List Char)
    (h : ¬ a.contains sep) :
    splitOnChar sep (a ++ sep :: r) = a :: splitOnChar sep r := by
  induction a with
  | nil => simpa using splitOnChar_sep_head sep r
  | cons c rest ih =>
      simp only [List.contains_cons, Bool.or_eq_true, beq_iff_eq, not_or] at h
      rw [List.cons_append, splitOnChar_cons, ih (by simpa using h.2)]
      simp only []
      rw [if_neg (by intro hc; exact h.1 hc.symm)]

theorem cutChar_not_found (sep : Char) (a : List Char) (h : ¬ a.contains sep) :
    cutChar sep a = (a, [], false) := by
  induction a with
  | nil => rfl
  | cons c rest ih =>
      simp only [List.contains_cons, Bool.or_eq_true, beq_iff_eq, not_or] at h
      rw [cutChar, if_neg (by intro hc; exact h.1 hc.symm),
        ih (by simpa using h.2)]

theorem cutChar_found (sep : Char) (a r : List Char) (h : ¬ a.contains sep) :
    cutChar sep (a ++ sep :: r) = (a, r, true) := by
  induction a with
  | nil => simp [cutChar]
  | cons c rest ih =>
      simp only [List.contains_cons, Bool.or_eq_true, beq_iff_eq, not_or] at h
      rw [List.cons_append, cutChar, if_neg (by intro hc; exact h.1 hc.symm),
        ih (by simpa using h.2)]

theorem joinSlash_append_single (segs : List (List Char)) (t : List Char)
    (h : segs ≠ []) :
    joinSlash (segs ++ [t]) = joinSlash segs ++ '/' :: t := by
  induction segs with
  | nil => exact absurd rfl h
  | cons s rest ih =>
      rcases rest with _ | ⟨s', rest'⟩
      · rfl
      · show joinSlash (s :: (s' :: rest') ++ [t]) = _
        rw [show joinSlash (s :: (s' :: rest') ++ [t]) =
          s ++ '/' :: joinSlash ((s' :: rest') ++ [t]) from rfl]
        rw [ih (by simp), show joinSlash (s :: s' :: rest') =
          s ++ '/' :: joinSlash (s' :: rest') from rfl]
        simp

theorem splitOnChar_joinSlash_append (segs : List (List Char)) (cs : List Char)
    (hne : segs ≠ []) (hfree : ∀ s ∈ segs, ¬ s.contains '/') :
    splitOnChar '/' (joinSlash segs ++ '/' :: cs) =
      segs ++ splitOnChar '/' cs := by
  induction segs with
  | nil => exact absurd rfl hne
  | cons s rest ih =>
      rcases rest with _ | ⟨s', rest'⟩
      · show splitOnChar '/' (s ++ '/' :: cs) = _
        rw [splitOnChar_append_sep '/' s cs (hfree s (by simp))]
        rfl
      · rw [show joinSlash (s :: s' :: rest') =
          s ++ '/' :: joinSlash (s' :: rest') from rfl]
        rw [List.append_assoc, List.cons_append]
        rw [splitOnChar_append_sep '/' s _ (hfree s (by simp))]
        rw [ih (by simp) (fun x hx => hfree x (by simp [hx]))]
        simp

theorem splitOnChar_joinSlash (segs : List (List Char)) (hne : segs ≠ [])
    (hfree : ∀ s ∈ segs, ¬ s.contains '/') :
    splitOnChar '/' (joinSlash segs) = segs := by
  induction segs with
  | nil => exact absurd rfl hne
  | cons s rest ih =>
      rcases rest with _ | ⟨s', rest'⟩
      · exact splitOnChar_no_sep '/' s (hfree s (by simp))
      · rw [show joinSlash (s :: s' :: rest') =
          s ++ '/' :: joinSlash (s' :: rest') from rfl]
        rw [splitOnChar_append_sep '/' s _ (hfree s (by simp))]
        rw [ih (by simp) (fun x hx => hfree x (by simp [hx]))]

theorem cleanSegs_cons (rooted : Bool) (stack : List (List Char))
    (seg : List Char) (rest : List (List Char)) :
    cleanSegs rooted stack (seg :: rest) =
      if seg = [] ∨ seg = ['.'] then cleanSegs rooted stack rest
      else if seg = ['.', '.'] then
        match stack with
        | [] =>
            if rooted then cleanSegs rooted [] rest
            else cleanSegs rooted [['.', '.']] rest
        | top :: stack' =>
            if top = ['.', '.'] then cleanSegs rooted (seg :: stack) rest
            else cleanSegs rooted stack' rest
      else cleanSegs rooted (seg :: stack) rest := rfl

theorem cleanSegs_pass (rooted : Bool) (L : List (List Char)) :
    ∀ stack, (∀ s ∈ L, s = [] ∨ goodSeg s) →
    cleanSegs rooted stack L =
      stack.reverse ++ L.filter (fun s => decide (s ≠ [])) := by
  induction L with
  | nil => intro stack _; simp [cleanSegs]
  | cons seg rest ih =>
      intro stack hL
      rcases hL seg (by simp) with hseg | hseg
      · subst hseg
        rw [cleanSegs_cons, if_pos (Or.inl rfl)]
        rw [ih stack (fun x hx => hL x (by simp [hx]))]
        simp
      · obtain ⟨h1, h2, h3, _⟩ := hseg
        rw [cleanSegs_cons, if_neg (by
            rintro (hc | hc)
            · exact h1 hc
            · exact h2 hc),
          if_neg h3]
        rw [ih (seg :: stack) (fun x hx => hL x (by simp [hx]))]
        simp [h1]

theorem stringDataEq (s t : String) (h : s.toList = t.toList) : s = t := by
  cases s; cases t
  exact congrArg String.mk (by simpa using h)

theorem pathClean_abs_track (segs : List (List Char)) (hne : segs ≠ [])
    (hgood : ∀ s ∈ segs, goodSeg s) :
    pathClean (String.mk ('/' :: (joinSlash segs ++ '/' :: '/' :: ['t','r','a','c','k']))) =
      String.mk ('/' :: (joinSlash segs ++ '/' :: ['t','r','a','c','k'])) := by
  have hfree : ∀ s ∈ segs, ¬ s.contains '/' := fun s hs => (hgood s hs).2.2.2
  have key : pathClean (String.mk ('/' :: (joinSlash segs ++ '/' :: '/' :: ['t','r','a','c','k']))) =
      String.mk ('/' :: joinSlash (cleanSegs true []
        (splitOnChar '/' ('/' :: (joinSlash segs ++ '/' :: '/' :: ['t','r','a','c','k']))))) := rfl
  rw [key]
  rw [splitOnChar_sep_head, splitOnChar_joinSlash_append segs _ hne hfree,
    splitOnChar_sep_head, splitOnChar_no_sep '/' ['t','r','a','c','k'] (by decide)]
  rw [cleanSegs_pass true ([] :: (segs ++ [] :: [['t','r','a','c','k']])) [] (by
    intro s hs
    simp at hs
    rcases hs with h | h | h
    · exact Or.inl h
    · exact Or.inr (hgood s h)
    · rcases h with h | h
      · exact Or.inl h
      · subst h; exact Or.inr (by decide))]
  have hfilter : ([] :: (segs ++ [] :: [['t','r','a','c','k']])).filter
      (fun s => decide (s ≠ [])) = segs ++ [['t','r','a','c','k']] := by
    rw [show ([] :: (segs ++ [] :: [['t','r','a','c','k']])).filter (fun s => decide (s ≠ [])) =
      (segs ++ [] :: [['t','r','a','c','k']]).filter (fun s => decide (s ≠ [])) from rfl]
    rw [List.filter_append]
    rw [List.filter_eq_self.mpr (fun s hs => by simpa using (hgood s hs).1)]
    rfl
  rw [hfilter]
  simp only [List.reverse_nil, List.nil_append]
  rw [joinSlash_append_single segs ['t','r','a','c','k'] hne]

theorem pathJoin_clean_abs (p : String) (hp : cleanAbsPath p) :
    pathJoin p "/track" = p ++ "/track" := by
  rcases hp with h0 | ⟨segs, hne, hgood, hsegs⟩
  · have hp0 : p = "" := stringDataEq p "" h0
    subst hp0
    rfl
  · have hpmk : p = String.mk ('/' :: joinSlash segs) := stringDataEq _ _ hsegs
    rw [hpmk]
    rw [pathJoin]
    rw [if_neg (by
      rintro ⟨hc, _⟩
      have := congrArg String.toList hc
      simp at this)]
    rw [if_neg (by
      intro hc
      have := congrArg String.toList hc
      simp at this)]
    rw [if_neg (by decide : ¬("/track" : String) = "")]
    have harg : String.mk ('/' :: joinSlash segs) ++ "/" ++ "/track" =
        String.mk ('/' :: (joinSlash segs ++ '/' :: '/' :: ['t','r','a','c','k'])) := by
      apply stringDataEq
      show ((String.mk ('/' :: joinSlash segs) ++ "/") ++ "/track").data = _
      rw [String.data_append, String.data_append]
      simp
    rw [harg, pathClean_abs_track segs hne hgood]
    apply stringDataEq
    show _ = (String.mk ('/' :: joinSlash segs) ++ "/track").data
    rw [String.data_append]
    simp

/-- C2 (amended): on every successful build, the phishing `URL` and the
`TrackingURL` render the same rendered base URL with the same encoded query
string, the `TrackingURL`'s path being the rendered URL's path with
`/track` path-joined; when the rendered URL's path is already clean and
absolute (or empty) that join is literally the path with `/track` appended
exactly once, introducing a single slash. -/
theorem newContext_trackingURL_joins_track (now : String)
    (parseAddress : String → Except GoErr MailAddress)
    (parseURL : String → Except GoErr URL)
    (ctx : TemplateContextI) (r : BaseRecipient) (rid : String)
    (a : MailAddress) (s : String) (u : URL)
    (ha : parseAddress ctx.getFromAddress = .ok a)
    (hr : ExecuteTemplate now ctx.getBaseURL r.lookup = .ok s)
    (hu : parseURL s = .ok u) :
    (∃ q : String,
      (NewPhishingTemplateContext now parseAddress parseURL ctx r rid).1.URL =
        URL.toString { u with rawQuery := q } ∧
      (NewPhishingTemplateContext now parseAddress parseURL ctx r rid).1.TrackingURL =
        URL.toString { u with path := pathJoin u.path "/track", rawQuery := q }) ∧
    (cleanAbsPath u.path → pathJoin u.path "/track" = u.path ++ "/track") := by
  have h := newContext_success now parseAddress parseURL ctx r rid a s u ha hr hu
  exact ⟨⟨valuesEncode (valuesSet (parseQueryValues u.rawQuery) RecipientParameter rid),
    h.2.2.2.2.2.1, h.2.2.2.2.2.2.1⟩, fun hcl => pathJoin_clean_abs u.path hcl⟩

theorem newContext_trackingURL_joins_track_witness :
    specParseURL "http://example.com/foo" = .ok { scheme := "http", user := none, host := "example.com", path := "/foo", rawQuery := "", fragment := "" } ∧
    pathJoin "/foo" "/track" = "/foo" ++ "/track" := by
  refine ⟨by decide, ?_⟩
  exact (newContext_trackingURL_joins_track "00:00" specParseAddress specParseURL
    { getFromAddress := "a@b.c", getBaseURL := "http://example.com/foo" }
    { Email := "e", FirstName := "f", LastName := "l", Position := "p" }
    "r1" { Name := "", Address := "a@b.c" } "http://example.com/foo"
    { scheme := "http", user := none, host := "example.com", path := "/foo", rawQuery := "", fragment := "" }
    rfl rfl rfl).2
    (Or.inr ⟨[['f','o','o']], by decide, by decide, rfl⟩)

/-! ## Query escaping lemmas -/

theorem hexVal_lt (c : Char) (x : Nat) (h : hexVal c = some x) : x < 16 := by
  unfold hexVal at h
  split_ifs at h with h1 h2 h3 <;>
    injection h with h' <;> subst h'
  · have hb : c.toNat ≤ 57 := h1.2
    omega
  · have hb : c.toNat ≤ 70 := h2.2
    omega
  · have hb : c.toNat ≤ 102 := h3.2
    omega

theorem hexVal_hexDigitChar (m : Nat) (h : m < 16) :
    hexVal (hexDigitChar m) = some m :=
  (by decide : ∀ m : Fin 16, hexVal (hexDigitChar m.val) = some m.val) ⟨m, h⟩

theorem hexDigitChar_mem (n : Nat) :
    hexDigitChar n ∈ "0123456789ABCDEF".toList := by
  unfold hexDigitChar
  rcases hg : "0123456789ABCDEF".toList.get? n with _ | d
  · show ("0123456789ABCDEF".toList.get? n).getD '0' ∈ _
    rw [hg]; decide
  · show ("0123456789ABCDEF".toList.get? n).getD '0' ∈ _
    rw [hg]; exact List.get?_mem hg

theorem unreserved_not_special (c : Char) (h : unreservedChar c = true) :
    c ≠ '%' ∧ c ≠ '+' ∧ c ≠ '&' ∧ c ≠ '=' ∧ c ≠ ';' := by
  refine ⟨?_, ?_, ?_, ?_, ?_⟩ <;> rintro rfl <;> exact absurd h (by decide)

theorem unescapeList_cons_plain (c : Char) (rest : List Char)
    (h1 : c ≠ '%') (h2 : c ≠ '+') :
    unescapeList (c :: rest) = (unescapeList rest).map (c :: ·) := by
  match rest with
  | [] =>
      show (if c = '%' then none else if c = '+' then (unescapeList []).map (' ' :: ·) else (unescapeList []).map (c :: ·)) = _
      rw [if_neg h1, if_neg h2]
  | [a] =>
      show (if c = '%' then none else if c = '+' then (unescapeList [a]).map (' ' :: ·) else (unescapeList [a]).map (c :: ·)) = _
      rw [if_neg h1, if_neg h2]
  | a :: b :: t =>
      show (if c = '%' then (hexVal a).bind fun x => (hexVal b).bind fun y => (unescapeList t).map (Char.ofNat (16 * x + y) :: ·) else if c = '+' then (unescapeList (a :: b :: t)).map (' ' :: ·) else (unescapeList (a :: b :: t)).map (c :: ·)) = _
      rw [if_neg h1, if_neg h2]

theorem unescapeList_plus (rest : List Char) :
    unescapeList ('+' :: rest) = (unescapeList rest).map (' ' :: ·) := by
  match rest with
  | [] => rfl
  | [a] => rfl
  | a :: b :: t => rfl

theorem unescapeList_pct (a b : Char) (rest : List Char) :
    unescapeList ('%' :: a :: b :: rest) =
      (hexVal a).bind fun x => (hexVal b).bind fun y =>
        (unescapeList rest).map (Char.ofNat (16 * x + y) :: ·) := rfl

theorem escapeChar_not_special (c d : Char) (hd : d ∈ escapeChar c) :
    d ≠ '&' ∧ d ≠ '=' ∧ d ≠ ';' ∧ d ≠ '/' := by
  unfold escapeChar at hd
  split_ifs at hd with h1 h2
  · rw [List.mem_singleton] at hd
    subst hd
    refine ⟨?_, ?_, ?_, ?_⟩ <;> rintro rfl <;> exact absurd h1 (by decide)
  · rw [List.mem_singleton] at hd
    subst hd
    exact ⟨by decide, by decide, by decide, by decide⟩
  · simp only [List.mem_cons, List.mem_singleton, List.not_mem_nil, or_false] at hd
    rcases hd with rfl | rfl | rfl
    · exact ⟨by decide, by decide, by decide, by decide⟩
    · exact (by decide :
        ∀ x ∈ "0123456789ABCDEF".toList, x ≠ '&' ∧ x ≠ '=' ∧ x ≠ ';' ∧ x ≠ '/')
        _ (hexDigitChar_mem _)
    · exact (by decide :
        ∀ x ∈ "0123456789ABCDEF".toList, x ≠ '&' ∧ x ≠ '=' ∧ x ≠ ';' ∧ x ≠ '/')
        _ (hexDigitChar_mem _)

theorem unescape_escape (cs : List Char) (h : ∀ c ∈ cs, c.toNat < 256) :
    unescapeList (escapeList cs) = some cs := by
  induction cs with
  | nil => rfl
  | cons c rest ih =>
      have hc : c.toNat < 256 := h c (by simp)
      have hrest := ih (fun x hx => h x (by simp [hx]))
      rw [show escapeList (c :: rest) = escapeChar c ++ escapeList rest by
        simp [escapeList]]
      by_cases h1 : unreservedChar c = true
      · obtain ⟨hp, hpl, _⟩ := unreserved_not_special c h1
        rw [show escapeChar c = [c] by simp [escapeChar, h1]]
        rw [List.cons_append, List.nil_append]
        rw [unescapeList_cons_plain c _ hp hpl, hrest]
        rfl
      · by_cases h2 : c = ' '
        · subst h2
          rw [show escapeChar ' ' = ['+'] by decide]
          rw [List.cons_append, List.nil_append]
          rw [unescapeList_plus, hrest]
          rfl
        · rw [show escapeChar c =
            ['%', hexDigitChar (c.toNat % 256 / 16), hexDigitChar (c.toNat % 256 % 16)] from by
              simp [escapeChar, h1, h2]]
          simp only [List.cons_append, List.nil_append]
          rw [unescapeList_pct]
          rw [hexVal_hexDigitChar _ (by omega), hexVal_hexDigitChar _ (by omega)]
          simp only [Option.some_bind]
          rw [hrest]
          have hch : Char.ofNat (16 * (c.toNat % 256 / 16) + c.toNat % 256 % 16) = c := by
            rw [show 16 * (c.toNat % 256 / 16) + c.toNat % 256 % 16 = c.toNat from by omega]
            exact Char.ofNat_toNat c
          rw [hch]
          rfl


theorem unescape_byteClean : ∀ (cs : List Char), ∀ out, unescapeList cs = some out →
    (∀ c ∈ cs, c.toNat < 256) → ∀ c ∈ out, c.toNat < 256 := by
  intro cs
  induction cs using unescapeList.induct with
  | case1 =>
      intro out h _
      cases h
      simp
  | case2 a b rest' ih =>
      intro out h hin
      rw [unescapeList_pct] at h
      rcases hx : hexVal a with _ | x
      · rw [hx] at h; cases h
      rcases hy : hexVal b with _ | y
      · rw [hx, hy] at h; cases h
      rw [hx, hy] at h
      simp only [Option.some_bind] at h
      rcases ho : unescapeList rest' with _ | out'
      · rw [ho] at h; cases h
      rw [ho] at h
      injection h with h'
      subst h'
      intro c hc
      rcases List.mem_cons.mp hc with rfl | hc'
      · have hx16 := hexVal_lt a x hx
        have hy16 := hexVal_lt b y hy
        have hv : (16 * x + y) < 256 := by omega
        calc (Char.ofNat (16 * x + y)).toNat = 16 * x + y := by
              unfold Char.ofNat
              rw [dif_pos (by constructor; omega)]
              rfl
          _ < 256 := hv
      · exact ih out' ho (fun d hd => hin d (by simp [hd])) c hc'
  | case3 rest hshape =>
      intro out h _
      exfalso
      match rest, hshape with
      | [], _ => exact Option.noConfusion h
      | [a], _ => exact Option.noConfusion h
      | a :: b :: t, hs => exact hs a b t rfl
  | case4 rest ihg ih =>
      intro out h hin
      rw [unescapeList_plus] at h
      rcases ho : unescapeList rest with _ | out'
      · rw [ho] at h; cases h
      rw [ho] at h
      injection h with h'
      subst h'
      intro c hc
      rcases List.mem_cons.mp hc with rfl | hc'
      · decide
      · exact ih out' ho (fun d hd => hin d (by simp [hd])) c hc'
  | case5 c rest h1 h2 ih =>
      intro out h hin
      rw [unescapeList_cons_plain c rest h1 h2] at h
      rcases ho : unescapeList rest with _ | out'
      · rw [ho] at h; cases h
      rw [ho] at h
      injection h with h'
      subst h'
      intro d hd
      rcases List.mem_cons.mp hd with rfl | hd'
      · exact hin d (by simp)
      · exact ih out' ho (fun e he => hin e (by simp [he])) d hd' 

/-! ## `url.Values` lemmas -/

theorem valuesAdd_cons (a : String) (b : List String) (rest : Values)
    (k v : String) :
    valuesAdd ((a, b) :: rest) k v =
      if a = k then (a, b ++ [v]) :: rest else (a, b) :: valuesAdd rest k v := rfl

theorem valuesSet_cons (a : String) (b : List String) (rest : Values)
    (k v : String) :
    valuesSet ((a, b) :: rest) k v =
      if a = k then (k, [v]) :: rest else (a, b) :: valuesSet rest k v := rfl

theorem valuesGet_cons (p : String × List String) (m : Values) (k : String) :
    valuesGet (p :: m) k = if p.1 = k then p.2 else valuesGet m k := by
  unfold valuesGet
  by_cases h : p.1 = k
  · simp [List.find?_cons, h]
  · simp [List.find?_cons, h]

theorem valuesGet_set_self (m : Values) (k v : String) :
    valuesGet (valuesSet m k v) k = [v] := by
  induction m with
  | nil => simp [valuesSet, valuesGet_cons]
  | cons p rest ih =>
      cases p with
      | mk a b =>
          rw [valuesSet_cons]
          by_cases h : a = k
          · rw [if_pos h, valuesGet_cons, if_pos rfl]
          · rw [if_neg h, valuesGet_cons, if_neg h, ih]

theorem valuesGet_set_ne (m : Values) (k v k' : String) (h : k' ≠ k) :
    valuesGet (valuesSet m k v) k' = valuesGet m k' := by
  induction m with
  | nil => simp [valuesSet, valuesGet_cons, valuesGet, Ne.symm h]
  | cons p rest ih =>
      cases p with
      | mk a b =>
          rw [valuesSet_cons]
          by_cases hp : a = k
          · rw [if_pos hp, valuesGet_cons, valuesGet_cons,
              if_neg (by simpa using Ne.symm h),
              if_neg (fun hc : a = k' => h (hc ▸ hp))]
          · rw [if_neg hp, valuesGet_cons, valuesGet_cons, ih]

theorem valuesAdd_not_mem (m : Values) (k v : String)
    (h : ∀ p ∈ m, p.1 ≠ k) : valuesAdd m k v = m ++ [(k, [v])] := by
  induction m with
  | nil => rfl
  | cons p rest ih =>
      cases p with
      | mk a b =>
          rw [valuesAdd_cons, if_neg (h (a, b) (by simp)),
            ih (fun q hq => h q (by simp [hq]))]
          rfl

theorem valuesAdd_last (m : Values) (k v : String) (vs : List String)
    (h : ∀ p ∈ m, p.1 ≠ k) :
    valuesAdd (m ++ [(k, vs)]) k v = m ++ [(k, vs ++ [v])] := by
  induction m with
  | nil => simp [valuesAdd_cons]
  | cons p rest ih =>
      cases p with
      | mk a b =>
          rw [List.cons_append, valuesAdd_cons, if_neg (h (a, b) (by simp)),
            ih (fun q hq => h q (by simp [hq]))]
          rfl

theorem mem_keys_valuesAdd (m : Values) (k v x : String)
    (hx : x ∈ (valuesAdd m k v).map Prod.fst) :
    x ∈ m.map Prod.fst ∨ x = k := by
  induction m with
  | nil => simpa [valuesAdd] using hx
  | cons p rest ih =>
      cases p with
      | mk a b =>
          rw [valuesAdd_cons] at hx
          by_cases hp : a = k
          · rw [if_pos hp] at hx
            rcases by simpa using hx with h | h
            · exact Or.inl (by simp [h])
            · exact Or.inl (by simp [h])
          · rw [if_neg hp] at hx
            rcases by simpa using hx with h | h
            · exact Or.inl (by simp [h])
            · rcases ih (by simpa using h) with h' | h'
              · exact Or.inl (by simp; exact Or.inr (by simpa using h'))
              · exact Or.inr h'

theorem valuesAdd_nodup (m : Values) (k v : String) (h : keysNodup m) :
    keysNodup (valuesAdd m k v) := by
  induction m with
  | nil => simp [valuesAdd, keysNodup]
  | cons p rest ih =>
      cases p with
      | mk a b =>
          unfold keysNodup at h
          rw [List.map_cons, List.nodup_cons] at h
          rw [valuesAdd_cons]
          by_cases hp : a = k
          · rw [if_pos hp]
            unfold keysNodup
            rw [List.map_cons, List.nodup_cons]
            exact ⟨h.1, h.2⟩
          · rw [if_neg hp]
            unfold keysNodup
            rw [List.map_cons, List.nodup_cons]
            refine ⟨fun hc => ?_, ih h.2⟩
            rcases mem_keys_valuesAdd rest k v a hc with h' | h'
            · exact h.1 h'
            · exact hp h'

theorem valuesAdd_nonempty (m : Values) (k v : String)
    (h : ∀ q ∈ m, q.2 ≠ []) : ∀ q ∈ valuesAdd m k v, q.2 ≠ [] := by
  induction m with
  | nil => simp [valuesAdd]
  | cons p rest ih =>
      cases p with
      | mk a b =>
          rw [valuesAdd_cons]
          by_cases hp : a = k
          · rw [if_pos hp]
            intro q hq
            rcases List.mem_cons.mp hq with rfl | hq'
            · simp
            · exact h q (by simp [hq'])
          · rw [if_neg hp]
            intro q hq
            rcases List.mem_cons.mp hq with rfl | hq'
            · exact h (a, b) (by simp)
            · exact ih (fun r hr => h r (by simp [hr])) q hq'

theorem valuesAdd_byteClean (m : Values) (k v : String)
    (h : valuesByteClean m) (hk : byteClean k) (hv : byteClean v) :
    valuesByteClean (valuesAdd m k v) := by
  induction m with
  | nil =>
      intro q hq
      rcases by simpa [valuesAdd] using hq with rfl
      exact ⟨hk, by simpa using hv⟩
  | cons p rest ih =>
      cases p with
      | mk a b =>
          rw [valuesAdd_cons]
          by_cases hp : a = k
          · rw [if_pos hp]
            intro q hq
            rcases List.mem_cons.mp hq with rfl | hq'
            · obtain ⟨h1, h2⟩ := h (a, b) (by simp)
              refine ⟨h1, fun w hw => ?_⟩
              rcases List.mem_append.mp hw with hw' | hw'
              · exact h2 w hw'
              · rw [List.mem_singleton] at hw'
                subst hw'
                exact hv
            · exact h q (by simp [hq'])
          · rw [if_neg hp]
            intro q hq
            rcases List.mem_cons.mp hq with rfl | hq'
            · exact h (a, b) (by simp)
            · exact ih (fun r hr => h r (by simp [hr])) q hq'

theorem mem_keys_valuesSet (m : Values) (k v x : String)
    (hx : x ∈ (valuesSet m k v).map Prod.fst) :
    x ∈ m.map Prod.fst ∨ x = k := by
  induction m with
  | nil => simpa [valuesSet] using hx
  | cons p rest ih =>
      cases p with
      | mk a b =>
          rw [valuesSet_cons] at hx
          by_cases hp : a = k
          · rw [if_pos hp] at hx
            rcases by simpa using hx with h | h
            · exact Or.inr h
            · exact Or.inl (by simp [h])
          · rw [if_neg hp] at hx
            rcases by simpa using hx with h | h
            · exact Or.inl (by simp [h])
            · rcases ih (by simpa using h) with h' | h'
              · exact Or.inl (by simp; exact Or.inr (by simpa using h'))
              · exact Or.inr h'

theorem valuesSet_nodup (m : Values) (k v : String) (h : keysNodup m) :
    keysNodup (valuesSet m k v) := by
  induction m with
  | nil => simp [valuesSet, keysNodup]
  | cons p rest ih =>
      cases p with
      | mk a b =>
          unfold keysNodup at h
          rw [List.map_cons, List.nodup_cons] at h
          rw [valuesSet_cons]
          by_cases hp : a = k
          · rw [if_pos hp]
            unfold keysNodup
            rw [List.map_cons, List.nodup_cons]
            exact ⟨fun hc => h.1 (hp ▸ hc), h.2⟩
          · rw [if_neg hp]
            unfold keysNodup
            rw [List.map_cons, List.nodup_cons]
            refine ⟨fun hc => ?_, ih h.2⟩
            rcases mem_keys_valuesSet rest k v a hc with h' | h'
            · exact h.1 h'
            · exact hp h'

theorem valuesSet_nonempty (m : Values) (k v : String)
    (h : ∀ q ∈ m, q.2 ≠ []) : ∀ q ∈ valuesSet m k v, q.2 ≠ [] := by
  induction m with
  | nil => simp [valuesSet]
  | cons p rest ih =>
      cases p with
      | mk a b =>
          rw [valuesSet_cons]
          by_cases hp : a = k
          · rw [if_pos hp]
            intro q hq
            rcases List.mem_cons.mp hq with rfl | hq'
            · simp
            · exact h q (by simp [hq'])
          · rw [if_neg hp]
            intro q hq
            rcases List.mem_cons.mp hq with rfl | hq'
            · exact h (a, b) (by simp)
            · exact ih (fun r hr => h r (by simp [hr])) q hq'

theorem valuesSet_byteClean (m : Values) (k v : String)
    (h : valuesByteClean m) (hk : byteClean k) (hv : byteClean v) :
    valuesByteClean (valuesSet m k v) := by
  induction m with
  | nil =>
      intro q hq
      rcases by simpa [valuesSet] using hq with rfl
      exact ⟨hk, by simpa using hv⟩
  | cons p rest ih =>
      cases p with
      | mk a b =>
          rw [valuesSet_cons]
          by_cases hp : a = k
          · rw [if_pos hp]
            intro q hq
            rcases List.mem_cons.mp hq with rfl | hq'
            · exact ⟨hk, by simpa using hv⟩
            · exact h q (by simp [hq'])
          · rw [if_neg hp]
            intro q hq
            rcases List.mem_cons.mp hq with rfl | hq'
            · exact h (a, b) (by simp)
            · exact ih (fun r hr => h r (by simp [hr])) q hq'

theorem valuesGet_of_mem (m : Values) (k : String) (vs : List String)
    (hnd : keysNodup m) (hm : (k, vs) ∈ m) : valuesGet m k = vs := by
  induction m with
  | nil => cases hm
  | cons p rest ih =>
      unfold keysNodup at hnd
      rw [List.map_cons, List.nodup_cons] at hnd
      rcases List.mem_cons.mp hm with rfl | hm'
      · rw [valuesGet_cons, if_pos rfl]
      · rw [valuesGet_cons, if_neg (fun hc => hnd.1 (by
          subst hc
          exact List.mem_map.mpr ⟨(p.1, vs), hm', rfl⟩))]
        exact ih hnd.2 hm'

theorem valuesGet_of_not_mem (m : Values) (k : String)
    (h : ∀ p ∈ m, p.1 ≠ k) : valuesGet m k = [] := by
  induction m with
  | nil => rfl
  | cons p rest ih =>
      rw [valuesGet_cons, if_neg (h p (by simp))]
      exact ih (fun q hq => h q (by simp [hq]))

theorem valuesGet_perm (m m' : Values) (hperm : m.Perm m') (hnd : keysNodup m)
    (k : String) : valuesGet m k = valuesGet m' k := by
  by_cases hex : ∃ vs, (k, vs) ∈ m
  · obtain ⟨vs, hm⟩ := hex
    rw [valuesGet_of_mem m k vs hnd hm]
    have hnd' : keysNodup m' := by
      unfold keysNodup at hnd ⊢
      exact ((hperm.map Prod.fst).nodup_iff).mp hnd
    rw [valuesGet_of_mem m' k vs hnd' (hperm.mem_iff.mp hm)]
  · push_neg at hex
    have hnk : ∀ p ∈ m, p.1 ≠ k := by
      rintro ⟨a, b⟩ hp hc
      exact hex b (by rwa [← hc])
    have hnk' : ∀ p ∈ m', p.1 ≠ k := by
      intro p hp
      exact hnk p (hperm.mem_iff.mpr hp)
    rw [valuesGet_of_not_mem m k hnk, valuesGet_of_not_mem m' k hnk']

theorem foldl_valuesAdd_same_key (pre : Values) (k : String)
    (hpre : ∀ p ∈ pre, p.1 ≠ k) :
    ∀ (vs : List String) (acc : List String),
    List.foldl (fun m kv => valuesAdd m kv.1 kv.2) (pre ++ [(k, acc)])
        (vs.map fun v => (k, v)) = pre ++ [(k, acc ++ vs)] := by
  intro vs
  induction vs with
  | nil => intro acc; simp
  | cons v vs' ih =>
      intro acc
      rw [List.map_cons, List.foldl_cons]
      rw [show valuesAdd (pre ++ [(k, acc)]) (k, v).1 (k, v).2 =
        pre ++ [(k, acc ++ [v])] from valuesAdd_last pre k v acc hpre]
      rw [ih (acc ++ [v])]
      simp

theorem foldl_valuesAdd_flat (L : Values) :
    ∀ m0 : Values,
    (m0.map Prod.fst ++ L.map Prod.fst).Nodup →
    (∀ kv ∈ L, kv.2 ≠ []) →
    List.foldl (fun m kv => valuesAdd m kv.1 kv.2) m0
        (L.flatMap fun kv => kv.2.map fun v => (kv.1, v)) = m0 ++ L := by
  induction L with
  | nil => intro m0 _ _; simp
  | cons p L' ih =>
      intro m0 hnd hne
      cases p with
      | mk k vs =>
          rw [List.flatMap_cons, List.foldl_append]
          have hknotin : ∀ q ∈ m0, q.1 ≠ k := by
            intro q hq hc
            rw [List.map_cons] at hnd
            have h1 : k ∈ m0.map Prod.fst :=
              List.mem_map.mpr ⟨q, hq, hc⟩
            have h2 := (List.nodup_append.mp hnd).2.2
            exact h2 h1 (by simp)
          have hvs : vs ≠ [] := hne (k, vs) (by simp)
          have hfirst : List.foldl (fun m kv => valuesAdd m kv.1 kv.2) m0
              (vs.map fun v => (k, v)) = m0 ++ [(k, vs)] := by
            rcases vs with _ | ⟨v, vs'⟩
            · exact absurd rfl hvs
            · rw [List.map_cons, List.foldl_cons]
              rw [show valuesAdd m0 (k, v).1 (k, v).2 = m0 ++ [(k, [v])] from
                valuesAdd_not_mem m0 k v hknotin]
              rw [foldl_valuesAdd_same_key m0 k hknotin vs' [v]]
              simp
          rw [hfirst]
          rw [ih (m0 ++ [(k, vs)]) (by
            simp only [List.map_append, List.map_cons] at hnd ⊢
            simpa [List.append_assoc] using hnd)
            (fun kv hkv => hne kv (by simp [hkv]))]
          simp

/-! ## Encoding round-trip lemmas -/

theorem mem_escapeList (cs : List Char) (d : Char) (hd : d ∈ escapeList cs) :
    ∃ c ∈ cs, d ∈ escapeChar c := by
  unfold escapeList at hd
  obtain ⟨x, hx, hdx⟩ := List.mem_flatten.mp hd
  obtain ⟨c, hc, rfl⟩ := List.mem_map.mp hx
  exact ⟨c, hc, hdx⟩

theorem escapeList_no_special (cs : List Char) :
    ¬ '&' ∈ escapeList cs ∧ ¬ '=' ∈ escapeList cs ∧ ¬ ';' ∈ escapeList cs := by
  refine ⟨fun h => ?_, fun h => ?_, fun h => ?_⟩ <;>
  · obtain ⟨c, _, hd⟩ := mem_escapeList cs _ h
    obtain ⟨h1, h2, h3, _⟩ := escapeChar_not_special c _ hd
    simp_all

theorem joinAmp_cons_toList (s s' : String) (rest : List String) :
    (joinAmp (s :: s' :: rest)).toList =
      s.toList ++ '&' :: (joinAmp (s' :: rest)).toList := by
  show (s ++ "&" ++ joinAmp (s' :: rest)).data = _
  rw [String.data_append, String.data_append]
  simp

theorem splitOnChar_joinAmp (parts : List String) (hne : parts ≠ [])
    (hfree : ∀ p ∈ parts, ¬ '&' ∈ p.toList) :
    splitOnChar '&' (joinAmp parts).toList = parts.map String.toList := by
  induction parts with
  | nil => exact absurd rfl hne
  | cons s rest ih =>
      rcases rest with _ | ⟨s', rest'⟩
      · show splitOnChar '&' s.toList = [s.toList]
        exact splitOnChar_no_sep '&' s.toList (by
          simpa using hfree s (by simp))
      · rw [joinAmp_cons_toList]
        rw [splitOnChar_append_sep '&' s.toList _ (by
          simpa using hfree s (by simp))]
        rw [ih (by simp) (fun p hp => hfree p (by simp [hp]))]
        rfl

theorem segToPair_encoded (k v : String) (hk : byteClean k) (hv : byteClean v) :
    segToPair (escapeQuery k ++ "=" ++ escapeQuery v).toList = some (k, v) := by
  have hseg : (escapeQuery k ++ "=" ++ escapeQuery v).toList =
      escapeList k.toList ++ '=' :: escapeList v.toList := by
    show ((escapeQuery k ++ "=") ++ escapeQuery v).data = _
    rw [String.data_append, String.data_append]
    show (escapeList k.toList ++ ['=']) ++ escapeList v.toList = _
    simp
  rw [hseg]
  unfold segToPair
  rw [if_neg (by
    intro hc
    have hc' : ';' ∈ escapeList k.toList ++ '=' :: escapeList v.toList := by
      simpa using hc
    rcases List.mem_append.mp hc' with h | h
    · exact (escapeList_no_special k.toList).2.2 h
    · rcases List.mem_cons.mp h with h' | h'
      · cases h'
      · exact (escapeList_no_special v.toList).2.2 h')]
  rw [if_neg (by simp)]
  rw [show cutChar '=' (escapeList k.toList ++ '=' :: escapeList v.toList) =
    (escapeList k.toList, escapeList v.toList, true) from
      cutChar_found '=' _ _ (by
        intro hc
        exact (escapeList_no_special k.toList).2.1 (by simpa using hc))]
  simp only [unescape_escape k.toList hk, unescape_escape v.toList hv]
  rfl

theorem filterMap_all_some {α : Type} (f : α → Option α) (l : List α)
    (h : ∀ x ∈ l, f x = some x) : l.filterMap f = l := by
  induction l with
  | nil => rfl
  | cons a rest ih =>
      rw [List.filterMap_cons, h a (by simp)]
      rw [ih (fun x hx => h x (by simp [hx]))]

theorem parse_encode_roundtrip (m : Values) (hnd : keysNodup m)
    (hne : ∀ kv ∈ m, kv.2 ≠ []) (hbc : valuesByteClean m) (k : String) :
    valuesGet (parseQueryValues (valuesEncode m)) k = valuesGet m k := by
  have hperm : (m.insertionSort fun a b => a.1 ≤ b.1).Perm m :=
    List.perm_insertionSort _ m
  set sorted := m.insertionSort (fun a b => a.1 ≤ b.1) with hsorted
  have hndS : keysNodup sorted := by
    unfold keysNodup at hnd ⊢
    exact ((hperm.map Prod.fst).nodup_iff).mpr hnd
  have hneS : ∀ kv ∈ sorted, kv.2 ≠ [] :=
    fun kv hkv => hne kv (hperm.mem_iff.mp hkv)
  have hbcS : valuesByteClean sorted :=
    fun kv hkv => hbc kv (hperm.mem_iff.mp hkv)
  have hget : valuesGet sorted k = valuesGet m k :=
    valuesGet_perm sorted m hperm hndS k
  rw [← hget]
  rw [show valuesEncode m = joinAmp (sorted.flatMap fun kv =>
    kv.2.map fun v => escapeQuery kv.1 ++ "=" ++ escapeQuery v) from rfl]
  have hparts : (sorted.flatMap fun kv => kv.2.map fun v =>
      escapeQuery kv.1 ++ "=" ++ escapeQuery v) =
      (sorted.flatMap fun kv => kv.2.map fun v => (kv.1, v)).map
        (fun q => escapeQuery q.1 ++ "=" ++ escapeQuery q.2) := by
    rw [List.map_bind]
    simp [List.map_map]
    rfl
  rw [hparts]
  rcases hS : sorted with _ | ⟨p0, rest0⟩
  · rfl
  · rw [← hS]
    have hpairsbc : ∀ q ∈ (sorted.flatMap fun kv => kv.2.map fun v => (kv.1, v)),
        byteClean q.1 ∧ byteClean q.2 := by
      intro q hq
      obtain ⟨kv, hkv, hq'⟩ := List.mem_flatMap.mp hq
      obtain ⟨v, hv, rfl⟩ := List.mem_map.mp hq'
      exact ⟨(hbcS kv hkv).1, (hbcS kv hkv).2 v hv⟩
    have hpartsne : ((sorted.flatMap fun kv => kv.2.map fun v => (kv.1, v)).map
        (fun q => escapeQuery q.1 ++ "=" ++ escapeQuery q.2)) ≠ [] := by
      rw [hS]
      simp only [List.flatMap_cons, List.map_append, ne_eq, List.append_eq_nil]
      rintro ⟨h1, _⟩
      have := hneS p0 (by rw [hS]; simp)
      rcases hp0 : p0.2 with _ | ⟨v, vs⟩
      · exact this hp0
      · rw [hp0] at h1
        simp at h1
    have hpartsfree : ∀ p ∈ ((sorted.flatMap fun kv => kv.2.map fun v => (kv.1, v)).map
        (fun q => escapeQuery q.1 ++ "=" ++ escapeQuery q.2)), ¬ '&' ∈ p.toList := by
      intro p hp
      obtain ⟨q, _, rfl⟩ := List.mem_map.mp hp
      intro hc
      have hl : (escapeQuery q.1 ++ "=" ++ escapeQuery q.2).toList =
          escapeList q.1.toList ++ '=' :: escapeList q.2.toList := by
        show ((escapeQuery q.1 ++ "=") ++ escapeQuery q.2).data = _
        rw [String.data_append, String.data_append]
        show (escapeList q.1.toList ++ ['=']) ++ escapeList q.2.toList = _
        simp
      rw [hl] at hc
      rcases List.mem_append.mp hc with h | h
      · exact (escapeList_no_special q.1.toList).1 h
      · rcases List.mem_cons.mp h with h' | h'
        · cases h'
        · exact (escapeList_no_special q.2.toList).1 h'
    unfold parseQueryValues
    rw [show (joinAmp ((sorted.flatMap fun kv => kv.2.map fun v => (kv.1, v)).map
        (fun q => escapeQuery q.1 ++ "=" ++ escapeQuery q.2))).toList =
      (joinAmp ((sorted.flatMap fun kv => kv.2.map fun v => (kv.1, v)).map
        (fun q => escapeQuery q.1 ++ "=" ++ escapeQuery q.2))).toList from rfl]
    rw [splitOnChar_joinAmp _ hpartsne hpartsfree]
    rw [List.map_map, List.filterMap_map]
    rw [filterMap_all_some _ _ (fun q hq => by
      have hbcq := hpairsbc q hq
      show segToPair (escapeQuery q.1 ++ "=" ++ escapeQuery q.2).toList = some q
      rw [segToPair_encoded q.1 q.2 hbcq.1 hbcq.2])]
    rw [foldl_valuesAdd_flat sorted [] (by
        simpa using hndS)
      hneS]
    rw [List.nil_append]

/-! ## Parse-side invariants -/

theorem splitOnChar_sub (sep : Char) (cs : List Char) :
    ∀ p ∈ splitOnChar sep cs, ∀ c ∈ p, c ∈ cs := by
  induction cs with
  | nil =>
      intro p hp c hc
      rw [show splitOnChar sep [] = [[]] from rfl, List.mem_singleton] at hp
      subst hp
      cases hc
  | cons d rest ih =>
      intro p hp c hc
      rw [splitOnChar_cons] at hp
      rcases hsp : splitOnChar sep rest with _ | ⟨h0, t0⟩
      · exact absurd hsp (splitOnChar_ne_nil sep rest)
      · rw [hsp] at hp
        dsimp only at hp
        by_cases hd : d = sep
        · rw [if_pos hd] at hp
          rcases List.mem_cons.mp hp with rfl | hp'
          · cases hc
          · exact List.mem_cons_of_mem d (ih p (by rw [hsp]; exact hp') c hc)
        · rw [if_neg hd] at hp
          rcases List.mem_cons.mp hp with rfl | hp'
          · rcases List.mem_cons.mp hc with rfl | hc'
            · simp
            · exact List.mem_cons_of_mem d (ih h0 (by rw [hsp]; simp) c hc')
          · exact List.mem_cons_of_mem d (ih p (by rw [hsp]; simp [hp']) c hc)

theorem cutChar_cons (sep d : Char) (rest : List Char) :
    cutChar sep (d :: rest) =
      if d = sep then ([], rest, true)
      else (d :: (cutChar sep rest).1, (cutChar sep rest).2.1,
        (cutChar sep rest).2.2) := rfl

theorem cutChar_sub (sep : Char) (cs : List Char) :
    (∀ c ∈ (cutChar sep cs).1, c ∈ cs) ∧ (∀ c ∈ (cutChar sep cs).2.1, c ∈ cs) := by
  induction cs with
  | nil => simp [cutChar]
  | cons d rest ih =>
      rw [cutChar_cons]
      by_cases hd : d = sep
      · rw [if_pos hd]
        constructor
        · intro c hc; cases hc
        · intro c hc; exact List.mem_cons_of_mem d hc
      · rw [if_neg hd]
        constructor
        · intro c hc
          rcases List.mem_cons.mp hc with rfl | hc'
          · simp
          · exact List.mem_cons_of_mem d (ih.1 c hc')
        · intro c hc
          exact List.mem_cons_of_mem d (ih.2 c hc)

theorem segToPair_byteClean (seg : List Char) (k v : String)
    (h : segToPair seg = some (k, v)) (hseg : ∀ c ∈ seg, c.toNat < 256) :
    byteClean k ∧ byteClean v := by
  unfold segToPair at h
  split_ifs at h
  rcases hk : unescapeList (cutChar '=' seg).1 with _ | k'
  · simp only [hk] at h
    cases h
  · rcases hv : unescapeList (cutChar '=' seg).2.1 with _ | v'
    · simp only [hk, hv] at h
      cases h
    · simp only [hk, hv] at h
      injection h with h'
      injection h' with h1 h2
      subst h1
      subst h2
      constructor
      · intro c hc
        exact unescape_byteClean (cutChar '=' seg).1 k' hk
          (fun d hd => hseg d ((cutChar_sub '=' seg).1 d hd)) c hc
      · intro c hc
        exact unescape_byteClean (cutChar '=' seg).2.1 v' hv
          (fun d hd => hseg d ((cutChar_sub '=' seg).2 d hd)) c hc

theorem foldl_valuesAdd_inv_nodup (ps : List (String × String)) :
    ∀ m0 : Values, keysNodup m0 →
    keysNodup (List.foldl (fun m kv => valuesAdd m kv.1 kv.2) m0 ps) := by
  induction ps with
  | nil => intro m0 h; exact h
  | cons p rest ih =>
      intro m0 h
      rw [List.foldl_cons]
      exact ih _ (valuesAdd_nodup m0 p.1 p.2 h)

theorem foldl_valuesAdd_inv_nonempty (ps : List (String × String)) :
    ∀ m0 : Values, (∀ q ∈ m0, q.2 ≠ []) →
    ∀ q ∈ List.foldl (fun m kv => valuesAdd m kv.1 kv.2) m0 ps, q.2 ≠ [] := by
  induction ps with
  | nil => intro m0 h; exact h
  | cons p rest ih =>
      intro m0 h
      rw [List.foldl_cons]
      exact ih _ (valuesAdd_nonempty m0 p.1 p.2 h)

theorem foldl_valuesAdd_inv_byteClean (ps : List (String × String))
    (hps : ∀ q ∈ ps, byteClean q.1 ∧ byteClean q.2) :
    ∀ m0 : Values, valuesByteClean m0 →
    valuesByteClean (List.foldl (fun m kv => valuesAdd m kv.1 kv.2) m0 ps) := by
  induction ps with
  | nil => intro m0 h; exact h
  | cons p rest ih =>
      intro m0 h
      rw [List.foldl_cons]
      exact ih (fun q hq => hps q (by simp [hq])) _
        (valuesAdd_byteClean m0 p.1 p.2 h (hps p (by simp)).1 (hps p (by simp)).2)

theorem parseQueryValues_nodup (q : String) : keysNodup (parseQueryValues q) :=
  foldl_valuesAdd_inv_nodup _ [] (by simp [keysNodup])

theorem parseQueryValues_nonempty (q : String) :
    ∀ kv ∈ parseQueryValues q, kv.2 ≠ [] :=
  foldl_valuesAdd_inv_nonempty _ [] (by simp)

theorem parseQueryValues_byteClean (q : String) (hq : byteClean q) :
    valuesByteClean (parseQueryValues q) := by
  unfold parseQueryValues
  refine foldl_valuesAdd_inv_byteClean _ ?_ [] (by intro kv hkv; cases hkv)
  intro p hp
  obtain ⟨seg, hseg, hsp⟩ := List.mem_filterMap.mp hp
  exact segToPair_byteClean seg p.1 p.2 (by rwa [show (p.1, p.2) = p from rfl])
    (fun c hc => hq c (splitOnChar_sub '&' q.toList seg hseg c hc))

/-- C6: on every successful build, the `URL` field is the rendered base URL
with the `RecipientParameter` query key set to the recipient id, overriding
any value that key already had, and every other query parameter preserved
(stated for byte strings — code points below 256 — where the character-level
escaping model coincides with Go's byte-level escaping). -/
theorem newContext_url_sets_rid (now : String)
    (parseAddress : String → Except GoErr MailAddress)
    (parseURL : String → Except GoErr URL)
    (ctx : TemplateContextI) (r : BaseRecipient) (rid : String)
    (a : MailAddress) (s : String) (u : URL)
    (ha : parseAddress ctx.getFromAddress = .ok a)
    (hr : ExecuteTemplate now ctx.getBaseURL r.lookup = .ok s)
    (hu : parseURL s = .ok u)
    (hq : byteClean u.rawQuery) (hrid : byteClean rid) :
    ∃ q : String,
      (NewPhishingTemplateContext now parseAddress parseURL ctx r rid).1.URL =
        URL.toString { u with rawQuery := q } ∧
      valuesGet (parseQueryValues q) RecipientParameter = [rid] ∧
      ∀ k, k ≠ RecipientParameter →
        valuesGet (parseQueryValues q) k =
          valuesGet (parseQueryValues u.rawQuery) k := by
  have h := newContext_success now parseAddress parseURL ctx r rid a s u ha hr hu
  have hnd := valuesSet_nodup (parseQueryValues u.rawQuery) RecipientParameter rid
    (parseQueryValues_nodup u.rawQuery)
  have hne := valuesSet_nonempty (parseQueryValues u.rawQuery) RecipientParameter rid
    (parseQueryValues_nonempty u.rawQuery)
  have hbc := valuesSet_byteClean (parseQueryValues u.rawQuery) RecipientParameter rid
    (parseQueryValues_byteClean u.rawQuery hq) (by decide) hrid
  refine ⟨valuesEncode (valuesSet (parseQueryValues u.rawQuery)
    RecipientParameter rid), h.2.2.2.2.2.1, ?_, ?_⟩
  · rw [parse_encode_roundtrip _ hnd hne hbc RecipientParameter]
    exact valuesGet_set_self _ _ _
  · intro k hk
    rw [parse_encode_roundtrip _ hnd hne hbc k]
    exact valuesGet_set_ne _ _ _ k hk

theorem newContext_url_sets_rid_witness :
    ∃ q : String,
      (NewPhishingTemplateContext "00:00" specParseAddress specParseURL { getFromAddress := "a@b.c", getBaseURL := "http://example.com/foo?a=1&rid=old" } { Email := "e", FirstName := "f", LastName := "l", Position := "p" } "r1").1.URL =
        URL.toString { scheme := "http", user := none, host := "example.com", path := "/foo", rawQuery := q, fragment := "" } ∧
      valuesGet (parseQueryValues q) RecipientParameter = ["r1"] ∧
      ∀ k, k ≠ RecipientParameter →
        valuesGet (parseQueryValues q) k =
          valuesGet (parseQueryValues "a=1&rid=old") k :=
  newContext_url_sets_rid "00:00" specParseAddress specParseURL
    { getFromAddress := "a@b.c", getBaseURL := "http://example.com/foo?a=1&rid=old" }
    { Email := "e", FirstName := "f", LastName := "l", Position := "p" }
    "r1" { Name := "", Address := "a@b.c" } "http://example.com/foo?a=1&rid=old"
    { scheme := "http", user := none, host := "example.com", path := "/foo", rawQuery := "a=1&rid=old", fragment := "" }
    rfl rfl rfl (by decide) (by decide)

/-! ## Template validator claims -/

theorem newContext_validation_eval (now : String) :
    NewPhishingTemplateContext now specParseAddress specParseURL { getFromAddress := "foo@bar.com", getBaseURL := "http://example.com" } { Email := "foo@bar.com", FirstName := "Foo", LastName := "Bar", Position := "Test" } "validate123" =
    ({ From := "foo@bar.com", URL := "http://example.com?rid=validate123", Tracker := "<img alt=\x27\x27 style=\x27display: none\x27 src=\x27http://example.com/track?rid=validate123\x27/>", TrackingURL := "http://example.com/track?rid=validate123", RId := "validate123", BaseURL := "http://example.com", baseRecipient := { Email := "foo@bar.com", FirstName := "Foo", LastName := "Bar", Position := "Test" } }, none) := rfl

theorem exceptMapOk (x : Except GoErr String) (f : String → String) :
    (∃ t, x.map f = .ok t) ↔ (∃ t, x = .ok t) := by
  rcases x with e | v
  · constructor <;> rintro ⟨t, ht⟩ <;> cases ht
  · exact ⟨fun _ => ⟨v, rfl⟩, fun _ => ⟨f v, rfl⟩⟩

theorem execTpl_ok_indep (d : String → Option String) (now1 now2 : String) :
    ∀ ns : List TplNode,
    ((∃ s, execTpl now1 d ns = .ok s) ↔ (∃ s, execTpl now2 d ns = .ok s)) := by
  intro ns
  induction ns with
  | nil => exact ⟨fun _ => ⟨"", rfl⟩, fun _ => ⟨"", rfl⟩⟩
  | cons n rest ih =>
      cases n with
      | lit s =>
          rw [show execTpl now1 d (.lit s :: rest) = (execTpl now1 d rest).map (s ++ ·) from rfl]
          rw [show execTpl now2 d (.lit s :: rest) = (execTpl now2 d rest).map (s ++ ·) from rfl]
          rw [exceptMapOk, exceptMapOk]
          exact ih
      | hora =>
          rw [show execTpl now1 d (.hora :: rest) = (execTpl now1 d rest).map (now1 ++ ·) from rfl]
          rw [show execTpl now2 d (.hora :: rest) = (execTpl now2 d rest).map (now2 ++ ·) from rfl]
          rw [exceptMapOk, exceptMapOk]
          exact ih
      | field n =>
          rcases hd : d n with _ | v
          · rw [show execTpl now1 d (.field n :: rest) =
              (match d n with
               | none => .error (.parseFailure ("can\x27t evaluate field " ++ n))
               | some v => (execTpl now1 d rest).map (v ++ ·)) from rfl]
            rw [show execTpl now2 d (.field n :: rest) =
              (match d n with
               | none => .error (.parseFailure ("can\x27t evaluate field " ++ n))
               | some v => (execTpl now2 d rest).map (v ++ ·)) from rfl]
            rw [hd]
          · rw [show execTpl now1 d (.field n :: rest) =
              (match d n with
               | none => .error (.parseFailure ("can\x27t evaluate field " ++ n))
               | some v => (execTpl now1 d rest).map (v ++ ·)) from rfl]
            rw [show execTpl now2 d (.field n :: rest) =
              (match d n with
               | none => .error (.parseFailure ("can\x27t evaluate field " ++ n))
               | some v => (execTpl now2 d rest).map (v ++ ·)) from rfl]
            rw [hd]
            rw [exceptMapOk, exceptMapOk]
            exact ih

/-- C9: `ValidateTemplate` is deterministic in its success/failure outcome:
the same template body validates (or fails) identically at any two
wall-clock readings — the dummy context is fixed and `hora`'s
time-dependent output never affects whether execution succeeds. -/
theorem validateTemplate_deterministic (text now1 now2 : String) :
    (ValidateTemplate now1 text = none) ↔ (ValidateTemplate now2 text = none) := by
  unfold ValidateTemplate
  dsimp only
  rw [newContext_validation_eval now1, newContext_validation_eval now2]
  dsimp only
  unfold ExecuteTemplate
  rcases hp : parseTpl text with e | nodes
  · simp
  · dsimp only
    have hok := execTpl_ok_indep (PhishingTemplateContext.lookup { From := "foo@bar.com", URL := "http://example.com?rid=validate123", Tracker := "<img alt=\x27\x27 style=\x27display: none\x27 src=\x27http://example.com/track?rid=validate123\x27/>", TrackingURL := "http://example.com/track?rid=validate123", RId := "validate123", BaseURL := "http://example.com", baseRecipient := { Email := "foo@bar.com", FirstName := "Foo", LastName := "Bar", Position := "Test" } }) now1 now2 nodes
    rcases h1 : execTpl now1 (PhishingTemplateContext.lookup { From := "foo@bar.com", URL := "http://example.com?rid=validate123", Tracker := "<img alt=\x27\x27 style=\x27display: none\x27 src=\x27http://example.com/track?rid=validate123\x27/>", TrackingURL := "http://example.com/track?rid=validate123", RId := "validate123", BaseURL := "http://example.com", baseRecipient := { Email := "foo@bar.com", FirstName := "Foo", LastName := "Bar", Position := "Test" } }) nodes with e1 | s1 <;>
      rcases h2 : execTpl now2 (PhishingTemplateContext.lookup { From := "foo@bar.com", URL := "http://example.com?rid=validate123", Tracker := "<img alt=\x27\x27 style=\x27display: none\x27 src=\x27http://example.com/track?rid=validate123\x27/>", TrackingURL := "http://example.com/track?rid=validate123", RId := "validate123", BaseURL := "http://example.com", baseRecipient := { Email := "foo@bar.com", FirstName := "Foo", LastName := "Bar", Position := "Test" } }) nodes with e2 | s2
    · simp [h1, h2]
    · exfalso
      obtain ⟨s, hs⟩ := hok.mpr ⟨s2, h2⟩
      rw [h1] at hs
      cases hs
    · exfalso
      obtain ⟨s, hs⟩ := hok.mp ⟨s1, h1⟩
      rw [h2] at hs
      cases hs
    · simp [h1, h2]

/-- C10: `ValidateTemplate` accepts the empty template body, so
`Template.Validate` — which validates both `Text` and `HTML`
unconditionally — never fails on the empty member when only one of
plaintext or HTML content is supplied: its outcome is decided by the
non-empty member (and the remaining checks) alone. -/
theorem validateTemplate_empty_valid :
    (∀ now, ValidateTemplate now "" = none) ∧
    (∀ now (t : Template),
      (t.Text = "" ∧ t.HTML ≠ "") ∨ (t.HTML = "" ∧ t.Text ≠ "") →
      t.Name ≠ "" →
      (t.HeaderProfile = "" ∨ (lookupProfile t.HeaderProfile).isSome) →
      t.EnvelopeSender = "" → t.Attachments = [] →
      (Template.Validate now t = none ↔
        ValidateTemplate now (if t.Text = "" then t.HTML else t.Text) = none)) := by
  have hempty : ∀ now, ValidateTemplate now "" = none := fun now => rfl
  refine ⟨hempty, fun now t hone hname hprof hes hatt => ?_⟩
  unfold Template.Validate
  rw [if_neg (by
    rintro ⟨hne, hnone⟩
    rcases hprof with h | h
    · exact hne h
    · rw [Option.isSome_iff_exists] at h
      obtain ⟨p, hp⟩ := h
      rw [hp] at hnone
      cases hnone)]
  rw [if_neg hname]
  rw [if_neg (by
    rintro ⟨ht, hh⟩
    rcases hone with ⟨h1, h2⟩ | ⟨h1, h2⟩
    · exact h2 hh
    · exact h2 ht)]
  rw [if_neg (by simpa using hes)]
  rw [hatt]
  rcases hone with ⟨h1, h2⟩ | ⟨h1, h2⟩
  · rw [if_pos h1, h1, hempty now]
    rcases hH : ValidateTemplate now t.HTML with _ | e
    · simp [hH, firstAttachmentErr]
    · simp [hH]
  · rw [if_neg h2, h1, hempty now]
    rcases hT : ValidateTemplate now t.Text with _ | e
    · simp [hT, firstAttachmentErr]
    · simp [hT]

theorem validateTemplate_empty_valid_witness :
    ValidateTemplate "00:00" "" = none ∧
    (Template.Validate "00:00" { Name := "n", EnvelopeSender := "", Subject := "", Text := "", HTML := "hello", Attachments := [], HeaderProfile := "" } = none ↔
      ValidateTemplate "00:00" "hello" = none) :=
  ⟨validateTemplate_empty_valid.1 "00:00",
   validateTemplate_empty_valid.2 "00:00"
     { Name := "n", EnvelopeSender := "", Subject := "", Text := "",
       HTML := "hello", Attachments := [], HeaderProfile := "" }
     (Or.inl ⟨rfl, by decide⟩) (by decide) (Or.inl rfl) rfl rfl⟩
